import Mathlib

/-!
Verification of the `pycodereview` rule engine
(`src/pycodereview/code_review.py`) against its specification.

The development shallowly embeds the post-processing helpers
(`_parse_lines`, `_compress_lines`, `merge_same_issue_across_lines`,
`sort_findings`, `Rule.make`, the `run_on_file` filtering loop) and the
AST-walking rules needed by the claims (`UndefinedNameRule`,
`ConcurrencyRule`, `ComplexityRule`, `TodoComments`).

String processing is modelled on `List Char`:
`str.split`, `str.strip`, `int(...)`, `str(...)` and `",".join` are
embedded as executable char-list functions.  `int(...)` is modelled for
strings consisting of an optional `+` sign followed by ASCII digits
(Python's acceptance of underscores and non-ASCII digits is not
modelled; no call site in the repository produces such strings).
-/

namespace PyCodeReview

/-! ### Characters, numerals, splitting -/

/-- Rendering of a decimal digit `d < 10`, as in Python's `str`. -/
def digitChar : Nat → Char
  | 0 => '0' | 1 => '1' | 2 => '2' | 3 => '3' | 4 => '4'
  | 5 => '5' | 6 => '6' | 7 => '7' | 8 => '8' | _ => '9'

/-- Numeric value of a decimal digit character. -/
def charDigit (c : Char) : Nat := c.toNat - 48

/-- Is `c` an ASCII decimal digit? -/
def isDigitChar (c : Char) : Bool := 48 ≤ c.toNat && c.toNat ≤ 57

/-- Fuel-indexed decimal rendering; `fuel > n` suffices. -/
def natCharsAux : Nat → Nat → List Char
  | 0, _ => []
  | fuel + 1, n => if n < 10 then [digitChar n] else natCharsAux fuel (n / 10) ++ [digitChar (n % 10)]

/-- Decimal rendering of a natural number (Python's `str(n)`). -/
def natChars (n : Nat) : List Char := natCharsAux (n + 1) n

/-- Decimal rendering of a natural number, as a `String`. -/
def natStr (n : Nat) : String := String.mk (natChars n)

/-- Left fold of decimal digits; `none` on a non-digit or on the empty string. -/
def digitsToNat : List Char → Option Nat
  | [] => none
  | l => l.foldl (fun acc c => acc.bind fun a => if isDigitChar c then some (a * 10 + charDigit c) else none) (some 0)

/-- Python's `int(s)` for the shapes reachable in this code base:
an optional `+` sign followed by ASCII digits. -/
def toNatQ (l : List Char) : Option Nat :=
  match l with
  | '+' :: rest => digitsToNat rest
  | _ => digitsToNat l

/-- Split a char list at every occurrence of `c` (Python `s.split(c)`:
always at least one part, empty parts kept). -/
def splitOnChar (c : Char) : List Char → List (List Char)
  | [] => [[]]
  | x :: xs =>
    let r := splitOnChar c xs
    if x = c then [] :: r
    else
      match r with
      | [] => [[x]]
      | p :: ps => (x :: p) :: ps

/-- Split at the first occurrence of `c` only (Python `s.split(c, 1)`):
the part before it and, when `c` occurs, the remainder. -/
def splitOnceChar (c : Char) : List Char → List Char × Option (List Char)
  | [] => ([], none)
  | x :: xs =>
    if x = c then ([], some xs)
    else
      let r := splitOnceChar c xs
      (x :: r.1, r.2)

/-- Python `s.strip()`: remove leading and trailing whitespace. -/
def stripChars (l : List Char) : List Char :=
  ((l.dropWhile Char.isWhitespace).reverse.dropWhile Char.isWhitespace).reverse

/-- Python `sep.join(parts)` for a one-character separator. -/
def joinWithChar (c : Char) : List (List Char) → List Char
  | [] => []
  | [p] => p
  | p :: ps => p ++ c :: joinWithChar c ps

/-- Is `pat` a prefix of `l`? -/
def listIsPref : List Char → List Char → Bool
  | [], _ => true
  | _ :: _, [] => false
  | p :: ps, x :: xs => p = x && listIsPref ps xs

/-- Does `pat` occur as a contiguous substring of `l`?  (Python `pat in s`.) -/
def listInfixOf (pat : List Char) : List Char → Bool
  | [] => listIsPref pat []
  | x :: xs => listIsPref pat (x :: xs) || listInfixOf pat xs

/-- Python `text.splitlines()` restricted to `\n` separators:
no trailing empty line after a final newline, `[]` on the empty string. -/
def splitLinesAux (acc : List Char) : List Char → List (List Char)
  | [] => [acc.reverse]
  | c :: rest =>
    if c = '\n' then
      acc.reverse :: (if rest.isEmpty then [] else splitLinesAux [] rest)
    else splitLinesAux (c :: acc) rest

/-- Python `text.splitlines()` (for `\n`-separated text). -/
def splitLines (s : String) : List String :=
  if s.data.isEmpty then [] else (splitLinesAux [] s.data).map String.mk

/-! ### Sorting with deduplication

`sorted(set(l))` from the source, as insertion into a strictly sorted
list; used by `Rule.make`, `_compress_lines` and the concurrency rule. -/

/-- Insert into a strictly `<`-sorted list, dropping duplicates. -/
def insertSD {α : Type} [LinearOrder α] (x : α) : List α → List α
  | [] => [x]
  | y :: ys => if x < y then x :: y :: ys else if x = y then y :: ys else y :: insertSD x ys

/-- Python `sorted(set(l))`: the strictly increasing enumeration of the
elements of `l`. -/
def sortedDedup {α : Type} [LinearOrder α] (l : List α) : List α :=
  l.foldr insertSD []

/-! ### The line-spec parser and range compressor -/

/-- Python `int(s)` including its stripping of surrounding whitespace. -/
def pyIntQ (l : List Char) : Option Nat := toNatQ (stripChars l)

/-- Python `range(start, end + 1)` as a list, for `start ≤ end`. -/
def rangeList (start «end» : Nat) : List Nat :=
  (List.range («end» + 1 - start)).map (start + ·)

/-- One comma-separated piece of `_parse_lines` (the body of the
`for part in s.split(",")` loop). -/
def parsePart (part : List Char) : List Nat :=
  let part := stripChars part
  if part.isEmpty then []
  else if part.contains '-' then
    match splitOnceChar '-' part with
    | (a, some b) =>
      match pyIntQ a, pyIntQ b with
      | some start, some «end» =>
        if start ≤ «end» then rangeList start «end» else []
      | _, _ => []
    | (_, none) => []
  else
    match pyIntQ part with
    | some n => [n]
    | none => []

/-- `_parse_lines`: parse `"12"`, `"10-12"`, `"3,7,9"`, `"11-13,17"` into
the list of line numbers; unknown pieces are ignored. -/
def parseLines (s : String) : List Nat :=
  ((splitOnChar ',' s.data).map parsePart).flatten

/-- The loop of `_compress_lines`: given the current run `[start..prev]`
and the remaining strictly increasing numbers, emit the rendered pieces. -/
def compressRuns (start prev : Nat) : List Nat → List (List Char)
  | [] => [if start = prev then natChars start else natChars start ++ '-' :: natChars prev]
  | x :: xs =>
    if x = prev + 1 then compressRuns start x xs
    else (if start = prev then natChars start else natChars start ++ '-' :: natChars prev)
      :: compressRuns x x xs

/-- `_compress_lines`: turn sorted unique ints into compact ranges,
`[1,2,3,7,9,10] ↦ "1-3,7,9-10"`; `""` on no numbers. -/
def compressLines (nums : List Nat) : String :=
  match sortedDedup nums with
  | [] => ""
  | n :: rest => String.mk (joinWithChar ',' (compressRuns n n rest))

/-! ### The Issue model and the `Rule.make` helper -/

/-- The `Issue` dataclass: one finding. -/
structure Issue where
  category : String
  priority : String
  impacted_lines : String
  potential_impact : String
  description : String
deriving DecidableEq

/-- The static defaults a rule carries (`category`, `priority`, `impact`). -/
structure RuleMeta where
  category : String
  priority : String
  impact : String
deriving DecidableEq

/-- The `line` argument of `Rule.make`: a single line number, a
`(start, end)` tuple, or an arbitrary collection of line numbers. -/
inductive MakeArg where
  | int (n : Nat)
  | pair (a b : Nat)
  | coll (lines : List Nat)

/-- `Rule.make`: build an `Issue` from the rule's static defaults and a
line spec (tuple → `"a-b"`, int → `"n"`, collection → sorted deduplicated
comma list). -/
def ruleMake (m : RuleMeta) (line : MakeArg) (message : String) : Issue :=
  let impacted :=
    match line with
    | .pair a b => String.mk (natChars a ++ '-' :: natChars b)
    | .int n => natStr n
    | .coll l => String.mk (joinWithChar ',' ((sortedDedup l).map natChars))
  { category := m.category, priority := m.priority, impacted_lines := impacted,
    potential_impact := m.impact, description := message }

/-- `Rule.report`: build an `Issue` at a single line, each field falling
back to the rule's static default when absent (Python's `x or default`,
with `none` standing for the absent argument). -/
def ruleReport (m : RuleMeta) (category priority : Option String) (line : Nat)
    (impact : Option String) (message : String) : Issue :=
  { category := category.getD m.category, priority := priority.getD m.priority,
    impacted_lines := natStr line, potential_impact := impact.getD m.impact,
    description := message }

/-! ### Syntactic validity of `impacted_lines` (specification side)

The spec's line-spec forms: a single line `"12"`, a contiguous range
`"10-22"`, or a sorted comma-separated list of such items `"5,12,29"`,
`"1-3,7"`. -/

/-- One comma-separated piece of a line spec. -/
inductive LineItem where
  | single (n : Nat)
  | range (a b : Nat)

/-- Decimal rendering of one line-spec item. -/
def lineItemChars : LineItem → List Char
  | .single n => natChars n
  | .range a b => natChars a ++ '-' :: natChars b

/-- Smallest line of an item. -/
def lineItemLow : LineItem → Nat
  | .single n => n
  | .range a _ => a

/-- Largest line of an item. -/
def lineItemHigh : LineItem → Nat
  | .single n => n
  | .range _ b => b

/-- A range item must be non-reversed. -/
def lineItemOK : LineItem → Prop
  | .single _ => True
  | .range a b => a ≤ b

/-- The specification's invariant on `impacted_lines` strings: a
non-empty comma-separated list of single lines and contiguous ranges,
sorted and non-overlapping. -/
def ValidLineSpec (s : String) : Prop :=
  ∃ items : List LineItem, items ≠ [] ∧ (∀ it ∈ items, lineItemOK it) ∧
    List.Pairwise (fun i j => lineItemHigh i < lineItemLow j) items ∧
    s.data = joinWithChar ',' (items.map lineItemChars)

/-! ### Priorities -/

/-- `PRIORITY_RANK`, as a partial lookup. -/
def priorityRank? (p : String) : Option Nat :=
  if p = "HIGH" then some 3 else if p = "MEDIUM" then some 2
  else if p = "LOW" then some 1 else none

/-- `PRIORITY_RANK.get(p, d)`. -/
def rankD (d : Nat) (p : String) : Nat := (priorityRank? p).getD d

/-- `_severity_pick_max`: keep the higher-ranked priority (ties keep the
first argument); unknown priorities rank 0. -/
def severityPickMax (a b : String) : String :=
  if rankD 0 b ≤ rankD 0 a then a else b

/-! ### `merge_same_issue_across_lines` -/

/-- The `norm` helper of the merge: collapse whitespace,
`" ".join(s.split())`. -/
def wordsAux (acc : List Char) : List Char → List (List Char)
  | [] => if acc.isEmpty then [] else [acc.reverse]
  | c :: rest =>
    if c.isWhitespace then
      (if acc.isEmpty then wordsAux [] rest else acc.reverse :: wordsAux [] rest)
    else wordsAux (c :: acc) rest

/-- Whitespace normalization used to build merge keys. -/
def normWS (s : String) : String := String.mk (joinWithChar ' ' (wordsAux [] s.data))

/-- The merge key `(filename, category, normalized impact, normalized description)`. -/
abbrev MergeKey := String × String × String × String

/-- Key of one `(filename, issue)` pair. -/
def mergeKey (fi : String × Issue) : MergeKey :=
  (fi.1, fi.2.category, normWS fi.2.potential_impact, normWS fi.2.description)

/-- The per-key aggregate dictionary value built by the merge. -/
structure MergeGroup where
  filename : String
  category : String
  priority : String
  impacted_lines : List Nat
  impacts : List String
  descs : List String
deriving DecidableEq

/-- The aggregate created on the first occurrence of a key. -/
def initGroup (fi : String × Issue) : MergeGroup :=
  { filename := fi.1, category := fi.2.category, priority := fi.2.priority,
    impacted_lines := parseLines fi.2.impacted_lines,
    impacts := [fi.2.potential_impact], descs := [fi.2.description] }

/-- The aggregate update on a later occurrence of the same key. -/
def updateGroup (g : MergeGroup) (iss : Issue) : MergeGroup :=
  { g with
    priority := severityPickMax g.priority iss.priority,
    impacted_lines := g.impacted_lines ++ parseLines iss.impacted_lines,
    impacts := if iss.potential_impact ∈ g.impacts then g.impacts
               else g.impacts ++ [iss.potential_impact],
    descs := if iss.description ∈ g.descs then g.descs
             else g.descs ++ [iss.description] }

/-- Lookup in the grouped dictionary (modelled as an association list in
insertion order, as Python dictionaries preserve it). -/
def assocFind (k : MergeKey) : List (MergeKey × MergeGroup) → Option MergeGroup
  | [] => none
  | (k', g) :: rest => if k = k' then some g else assocFind k rest

/-- Update the entry of an existing key in place. -/
def assocUpdate (k : MergeKey) (f : MergeGroup → MergeGroup) :
    List (MergeKey × MergeGroup) → List (MergeKey × MergeGroup)
  | [] => []
  | (k', g) :: rest => if k = k' then (k', f g) :: rest else (k', g) :: assocUpdate k f rest

/-- One iteration of the merge loop over the input pairs. -/
def mergeStep (acc : List (MergeKey × MergeGroup)) (fi : String × Issue) :
    List (MergeKey × MergeGroup) :=
  match assocFind (mergeKey fi) acc with
  | none => acc ++ [(mergeKey fi, initGroup fi)]
  | some _ => assocUpdate (mergeKey fi) (fun g => updateGroup g fi.2) acc

/-- Rebuild the merged `(filename, Issue)` pair from an aggregate
(`lines if lines else ""` is the identity on strings). -/
def groupOut (g : MergeGroup) : String × Issue :=
  (g.filename,
   { category := g.category, priority := g.priority,
     impacted_lines := compressLines g.impacted_lines,
     potential_impact := " | ".intercalate g.impacts,
     description := " | ".intercalate g.descs })

/-- `merge_same_issue_across_lines`: merge identical issues on different
lines into a single row per key, in first-occurrence key order. -/
def mergeSameIssueAcrossLines (items : List (String × Issue)) : List (String × Issue) :=
  ((items.foldl mergeStep []).map (fun kg => groupOut kg.2))

/-! ### Specification-side closed form of the merge -/

/-- First-occurrence deduplication, excluding keys already seen. -/
def dedupFirstAux {α : Type} [DecidableEq α] (seen : List α) : List α → List α
  | [] => []
  | x :: xs => if x ∈ seen then dedupFirstAux seen xs else x :: dedupFirstAux (seen ++ [x]) xs

/-- First-occurrence deduplication of a list. -/
def dedupFirst {α : Type} [DecidableEq α] (l : List α) : List α := dedupFirstAux [] l

/-- The input pairs carrying a given merge key, in input order. -/
def filterKey (k : MergeKey) (items : List (String × Issue)) : List (String × Issue) :=
  items.filter (fun fi => mergeKey fi = k)

/-- Fold the merge's aggregate update over a list of pairs. -/
def extendGroup (g : MergeGroup) (l : List (String × Issue)) : MergeGroup :=
  l.foldl (fun g fi => updateGroup g fi.2) g

/-- The aggregate a key ends up with: its first occurrence initialises the
group, the later ones update it. -/
def groupFor (items : List (String × Issue)) (k : MergeKey) : MergeGroup :=
  match filterKey k items with
  | [] => ⟨"", "", "", [], [], []⟩
  | fi :: rest => extendGroup (initGroup fi) rest

/-! ### `sort_findings` -/

/-- `os.path.basename`: the part after the last `/`. -/
def basename (s : String) : String :=
  String.mk ((s.data.reverse.takeWhile (fun c => c ≠ '/')).reverse)

/-- The `first_line` helper of `sort_findings`: the integer before the
first `,` and `-`, or 0 when it does not parse. -/
def firstLineOf (s : String) : Nat :=
  match pyIntQ (splitOnceChar '-' (splitOnceChar ',' s.data).1).1 with
  | some n => n
  | none => 0

/-- `_priority_sort_key`: priority rank negated (defaulting to 0). -/
def prioritySortKey (p : String) : Int := -(rankD 0 p : Int)

/-- The lexicographic sort key of `sort_findings`. -/
abbrev SortKey := Int ×ₗ (String ×ₗ (String ×ₗ ℕ))

/-- Sort key of one finding: priority descending, then category, then
file base name, then first impacted line. -/
def sortKeyOf (fi : String × Issue) : SortKey :=
  toLex (prioritySortKey fi.2.priority,
    toLex (fi.2.category, toLex (basename fi.1, firstLineOf fi.2.impacted_lines)))

/-- Stable insertion by sort key (a new item goes after existing items
with an equal key). -/
def insertByKey (x : String × Issue) : List (String × Issue) → List (String × Issue)
  | [] => [x]
  | y :: ys => if sortKeyOf x ≤ sortKeyOf y then x :: y :: ys else y :: insertByKey x ys

/-- `sort_findings`: Python's `sorted` is the stable sort by the key
above; embedded as stable insertion sort (extensionally the same). -/
def sortFindings (items : List (String × Issue)) : List (String × Issue) :=
  items.foldr insertByKey []

/-! ### A shallow embedding of the Python AST

Only the node kinds inspected by the embedded rules are modelled.
Bodies are represented by the mutual list families `SL`/`EL`/… so that
every analysis is a plain structural recursion.  `lineno` is carried
everywhere a rule reads it; `end_lineno` only on definition nodes (the
only place the code reads it).  Python's `ast.walk` enumerates nodes
breadth-first while the embedded analyses enumerate depth-first; the
two enumerations visit the same set of nodes, and on every concrete
program evaluated below they also agree on each order-sensitive step.
Keyword arguments, decorators, default-value expressions, lambdas and
the async `for`/`with` statement forms are outside the modelled
fragment. -/

/-- Expression context: is a `Name` read or written? -/
inductive Ctx where
  | load
  | store
deriving DecidableEq

/-- Constant values (`ast.Constant`). -/
inductive CVal where
  | str (s : String)
  | int (n : Int)
  | noneV
deriving DecidableEq

/-- Comparison operators; only `Eq` is ever inspected. -/
inductive CmpOp where
  | eq
  | other
deriving DecidableEq

/-- `ast.arguments`, reduced to the argument names the rules read. -/
structure PArgs where
  args : List String
  kwonlyargs : List String
  vararg : Option String
  kwarg : Option String
deriving DecidableEq

/-- `ast.alias` of an import. -/
structure PAlias where
  name : String
  asname : Option String
deriving DecidableEq

mutual

/-- Python expressions. -/
inductive Expr where
  | nameE (id : String) (ctx : Ctx) (lineno : Nat)
  | constE (v : CVal) (lineno : Nat)
  | call (func : Expr) (args : EL) (lineno : Nat)
  | attributeE (value : Expr) (attr : String) (lineno : Nat)
  | boolOp (values : EL) (lineno : Nat)
  | ifExp (test body orelse : Expr) (lineno : Nat)
  | compare (left : Expr) (ops : List CmpOp) (comparators : EL) (lineno : Nat)
  | tupleE (elts : EL) (ctx : Ctx) (lineno : Nat)
  | listE (elts : EL) (ctx : Ctx) (lineno : Nat)
  | listComp (elt : Expr) (generators : CL) (lineno : Nat)
  | setComp (elt : Expr) (generators : CL) (lineno : Nat)
  | generatorExp (elt : Expr) (generators : CL) (lineno : Nat)
  | dictComp (key value : Expr) (generators : CL) (lineno : Nat)

/-- An optional expression (mutual-family analogue of `Option Expr`). -/
inductive OE where
  | noneO
  | someO (e : Expr)

/-- A list of expressions. -/
inductive EL where
  | nil
  | cons (e : Expr) (tl : EL)

/-- One `ast.comprehension` clause. -/
inductive Comp where
  | mk (target : Expr) (iter : Expr) (ifs : EL)

/-- A list of comprehension clauses. -/
inductive CL where
  | nil
  | cons (c : Comp) (tl : CL)

/-- Python statements. -/
inductive Stmt where
  | functionDef (name : String) (args : PArgs) (body : SL) (lineno endLineno : Nat)
  | asyncFunctionDef (name : String) (args : PArgs) (body : SL) (lineno endLineno : Nat)
  | classDef (name : String) (body : SL) (lineno endLineno : Nat)
  | assign (targets : EL) (value : Expr) (lineno : Nat)
  | exprStmt (value : Expr) (lineno : Nat)
  | ret (value : OE) (lineno : Nat)
  | ifStmt (test : Expr) (body orelse : SL) (lineno : Nat)
  | forStmt (target iter : Expr) (body orelse : SL) (lineno : Nat)
  | whileStmt (test : Expr) (body orelse : SL) (lineno : Nat)
  | withStmt (items : WL) (body : SL) (lineno : Nat)
  | tryStmt (body : SL) (handlers : HL) (orelse finalbody : SL) (lineno : Nat)
  | importS (names : List PAlias) (lineno : Nat)
  | importFromS (module : Option String) (names : List PAlias) (lineno : Nat)
  | matchStmt (subject : Expr) (cases : ML) (lineno : Nat)
  | passS (lineno : Nat)

/-- A list of statements. -/
inductive SL where
  | nil
  | cons (s : Stmt) (tl : SL)

/-- One `with` item. -/
inductive WithItem where
  | mk (contextExpr : Expr) (optionalVars : OE)

/-- A list of `with` items. -/
inductive WL where
  | nil
  | cons (w : WithItem) (tl : WL)

/-- One `except` handler. -/
inductive Handler where
  | mk (typ : OE) (body : SL) (lineno : Nat)

/-- A list of handlers. -/
inductive HL where
  | nil
  | cons (h : Handler) (tl : HL)

/-- One `match` case (only its body is relevant to the rules). -/
inductive MatchCase where
  | mk (body : SL)

/-- A list of `match` cases. -/
inductive ML where
  | nil
  | cons (m : MatchCase) (tl : ML)

end

/-- A parsed module. -/
structure Module where
  body : SL

/-- Convert a plain list of statements into the mutual-family list. -/
def SL.ofList : List Stmt → SL
  | [] => .nil
  | s :: rest => .cons s (SL.ofList rest)

/-- Convert a plain list of expressions into the mutual-family list. -/
def EL.ofList : List Expr → EL
  | [] => .nil
  | e :: rest => .cons e (EL.ofList rest)

/-! ### Node kinds and subtree enumeration (`ast.walk` + `isinstance`) -/

/-- The kind tag of a node, standing for its `ast` class in
`isinstance` tests. -/
inductive NKind where
  | kFunctionDef | kAsyncFunctionDef | kClassDef | kAssign | kExprStmt
  | kRet | kIf | kFor | kWhile | kWith | kTry | kHandler | kImport
  | kImportFrom | kMatch | kMatchCase | kPass | kName | kConst | kCall
  | kAttribute | kBoolOp | kIfExp | kCompare | kTuple | kList | kListComp
  | kSetComp | kGeneratorExp | kDictComp | kComprehension | kWithItem
deriving DecidableEq

mutual

/-- Kinds of all nodes in a statement's subtree (the node itself included). -/
def kindsS : Stmt → List NKind
  | .functionDef _ _ body _ _ => .kFunctionDef :: kindsSL body
  | .asyncFunctionDef _ _ body _ _ => .kAsyncFunctionDef :: kindsSL body
  | .classDef _ body _ _ => .kClassDef :: kindsSL body
  | .assign targets value _ => .kAssign :: (kindsEL targets ++ kindsE value)
  | .exprStmt value _ => .kExprStmt :: kindsE value
  | .ret value _ => .kRet :: kindsOE value
  | .ifStmt test body orelse _ => .kIf :: (kindsE test ++ kindsSL body ++ kindsSL orelse)
  | .forStmt target iter body orelse _ =>
      .kFor :: (kindsE target ++ kindsE iter ++ kindsSL body ++ kindsSL orelse)
  | .whileStmt test body orelse _ => .kWhile :: (kindsE test ++ kindsSL body ++ kindsSL orelse)
  | .withStmt items body _ => .kWith :: (kindsWL items ++ kindsSL body)
  | .tryStmt body handlers orelse finalbody _ =>
      .kTry :: (kindsSL body ++ kindsHL handlers ++ kindsSL orelse ++ kindsSL finalbody)
  | .importS _ _ => [.kImport]
  | .importFromS _ _ _ => [.kImportFrom]
  | .matchStmt subject cases _ => .kMatch :: (kindsE subject ++ kindsML cases)
  | .passS _ => [.kPass]

/-- Kinds of all nodes in a statement list. -/
def kindsSL : SL → List NKind
  | .nil => []
  | .cons s tl => kindsS s ++ kindsSL tl

/-- Kinds of all nodes in an expression's subtree. -/
def kindsE : Expr → List NKind
  | .nameE _ _ _ => [.kName]
  | .constE _ _ => [.kConst]
  | .call func args _ => .kCall :: (kindsE func ++ kindsEL args)
  | .attributeE value _ _ => .kAttribute :: kindsE value
  | .boolOp values _ => .kBoolOp :: kindsEL values
  | .ifExp test body orelse _ => .kIfExp :: (kindsE test ++ kindsE body ++ kindsE orelse)
  | .compare left _ comparators _ => .kCompare :: (kindsE left ++ kindsEL comparators)
  | .tupleE elts _ _ => .kTuple :: kindsEL elts
  | .listE elts _ _ => .kList :: kindsEL elts
  | .listComp elt generators _ => .kListComp :: (kindsE elt ++ kindsCL generators)
  | .setComp elt generators _ => .kSetComp :: (kindsE elt ++ kindsCL generators)
  | .generatorExp elt generators _ => .kGeneratorExp :: (kindsE elt ++ kindsCL generators)
  | .dictComp key value generators _ =>
      .kDictComp :: (kindsE key ++ kindsE value ++ kindsCL generators)

/-- Kinds of all nodes in an expression list. -/
def kindsEL : EL → List NKind
  | .nil => []
  | .cons e tl => kindsE e ++ kindsEL tl

/-- Kinds of all nodes under an optional expression. -/
def kindsOE : OE → List NKind
  | .noneO => []
  | .someO e => kindsE e

/-- Kinds of all nodes in a comprehension clause. -/
def kindsC : Comp → List NKind
  | .mk target iter ifs => .kComprehension :: (kindsE target ++ kindsE iter ++ kindsEL ifs)

/-- Kinds of all nodes in a comprehension-clause list. -/
def kindsCL : CL → List NKind
  | .nil => []
  | .cons c tl => kindsC c ++ kindsCL tl

/-- Kinds of all nodes in a `with` item. -/
def kindsW : WithItem → List NKind
  | .mk contextExpr optionalVars => .kWithItem :: (kindsE contextExpr ++ kindsOE optionalVars)

/-- Kinds of all nodes in a `with`-item list. -/
def kindsWL : WL → List NKind
  | .nil => []
  | .cons w tl => kindsW w ++ kindsWL tl

/-- Kinds of all nodes in a handler. -/
def kindsH : Handler → List NKind
  | .mk typ body _ => .kHandler :: (kindsOE typ ++ kindsSL body)

/-- Kinds of all nodes in a handler list. -/
def kindsHL : HL → List NKind
  | .nil => []
  | .cons h tl => kindsH h ++ kindsHL tl

/-- Kinds of all nodes in a `match` case. -/
def kindsM : MatchCase → List NKind
  | .mk body => .kMatchCase :: kindsSL body

/-- Kinds of all nodes in a `match`-case list. -/
def kindsML : ML → List NKind
  | .nil => []
  | .cons m tl => kindsM m ++ kindsML tl

end

/-! ### The complexity rule -/

/-- The `isinstance` tuple of `ComplexityRule._complexity`:
`(If, For, While, Try, With, BoolOp, IfExp, comprehension, Match)`. -/
def isComplexityKind : NKind → Bool
  | .kIf => true
  | .kFor => true
  | .kWhile => true
  | .kTry => true
  | .kWith => true
  | .kBoolOp => true
  | .kIfExp => true
  | .kComprehension => true
  | .kMatch => true
  | _ => false

/-- `ComplexityRule._complexity`: 1 plus the number of matching nodes in
the walk of the definition's subtree. -/
def complexityScore (s : Stmt) : Nat := 1 + ((kindsS s).filter isComplexityKind).length

/-- `ComplexityRule._loc`: `end_lineno - lineno + 1` when both are
present and non-zero, else 0. -/
def locOf (lineno endLineno : Nat) : Int :=
  if 0 < lineno ∧ 0 < endLineno then (endLineno : Int) - (lineno : Int) + 1 else 0

/-- Decimal rendering of an integer (Python's `str(i)`). -/
def intStr (i : Int) : String :=
  if i < 0 then String.mk ('-' :: natChars (-i).toNat) else natStr i.toNat

/-- The static texts of `ComplexityRule`. -/
def complexityCATEGORY : String := "Maintainability"

/-- Priority text of `ComplexityRule`. -/
def complexityPRIORITY : String := "LOW"

/-- Impact text of `ComplexityRule`. -/
def complexityIMPACT : String := "High complexity/size reduces readability and increases bug risk."

/-- `ComplexityRule._check_named`: the message reported for a too-complex
or too-long definition node. -/
def complexityMessage (filename kind name : String) (cplx : Nat) (loc : Int)
    (maxComplexity : Nat) (maxLines : Int) : String :=
  filename ++ ": " ++ kind ++ " '" ++ name ++ "' too complex (C=" ++ natStr cplx ++
    ", LOC=" ++ intStr loc ++ "); thresholds: C>" ++ natStr maxComplexity ++
    " or LOC>" ++ intStr maxLines ++ "."

/-- `ComplexityRule._check_named`: report iff the score or the size
strictly exceeds its threshold. -/
def checkNamed (maxComplexity : Nat) (maxLines : Int) (filename kind name : String)
    (node : Stmt) (lineno endLineno : Nat) : List Issue :=
  let cplx := complexityScore node
  let loc := locOf lineno endLineno
  if maxComplexity < cplx ∨ maxLines < loc then
    [ruleReport ⟨"General", "LOW", "Informational"⟩
      (some complexityCATEGORY) (some complexityPRIORITY) lineno (some complexityIMPACT)
      (complexityMessage filename kind name cplx loc maxComplexity maxLines)]
  else []

mutual

/-- The visitor traversal of `ComplexityRule`: at each definition node
run `_check_named`, then recurse into the node's children. -/
def complexityStmt (maxC : Nat) (maxL : Int) (filename : String) : Stmt → List Issue
  | s@(.functionDef name _ body lineno endLineno) =>
      checkNamed maxC maxL filename "Function" name s lineno endLineno ++
        complexityStmts maxC maxL filename body
  | s@(.asyncFunctionDef name _ body lineno endLineno) =>
      checkNamed maxC maxL filename "Async function" name s lineno endLineno ++
        complexityStmts maxC maxL filename body
  | s@(.classDef name body lineno endLineno) =>
      checkNamed maxC maxL filename "Class" name s lineno endLineno ++
        complexityStmts maxC maxL filename body
  | .ifStmt _ body orelse _ =>
      complexityStmts maxC maxL filename body ++ complexityStmts maxC maxL filename orelse
  | .forStmt _ _ body orelse _ =>
      complexityStmts maxC maxL filename body ++ complexityStmts maxC maxL filename orelse
  | .whileStmt _ body orelse _ =>
      complexityStmts maxC maxL filename body ++ complexityStmts maxC maxL filename orelse
  | .withStmt _ body _ => complexityStmts maxC maxL filename body
  | .tryStmt body handlers orelse finalbody _ =>
      complexityStmts maxC maxL filename body ++ complexityHandlers maxC maxL filename handlers ++
        complexityStmts maxC maxL filename orelse ++ complexityStmts maxC maxL filename finalbody
  | .matchStmt _ cases _ => complexityCases maxC maxL filename cases
  | _ => []

/-- Traversal of a statement list. -/
def complexityStmts (maxC : Nat) (maxL : Int) (filename : String) : SL → List Issue
  | .nil => []
  | .cons s tl =>
      complexityStmt maxC maxL filename s ++ complexityStmts maxC maxL filename tl

/-- Traversal of exception handlers. -/
def complexityHandlers (maxC : Nat) (maxL : Int) (filename : String) : HL → List Issue
  | .nil => []
  | .cons (.mk _ body _) tl =>
      complexityStmts maxC maxL filename body ++ complexityHandlers maxC maxL filename tl

/-- Traversal of `match` cases. -/
def complexityCases (maxC : Nat) (maxL : Int) (filename : String) : ML → List Issue
  | .nil => []
  | .cons (.mk body) tl =>
      complexityStmts maxC maxL filename body ++ complexityCases maxC maxL filename tl

end

/-- `ComplexityRule.check` (the inherited visitor `check`): empty on a
missing tree, otherwise the full traversal. -/
def complexityCheck (maxC : Nat) (maxL : Int) (filename : String)
    (tree : Option Module) (_text : String) : List Issue :=
  match tree with
  | none => []
  | some m => complexityStmts maxC maxL filename m.body

/-! Specification-side view of the definition nodes, in traversal order. -/

/-- One function/async-function/class definition node, with the fields
the complexity rule reads. -/
structure DefView where
  kind : String
  name : String
  node : Stmt
  lineno : Nat
  endLineno : Nat

mutual

/-- All definition nodes in a statement's subtree, in preorder. -/
def defNodesS : Stmt → List DefView
  | s@(.functionDef name _ body lineno endLineno) =>
      ⟨"Function", name, s, lineno, endLineno⟩ :: defNodesSL body
  | s@(.asyncFunctionDef name _ body lineno endLineno) =>
      ⟨"Async function", name, s, lineno, endLineno⟩ :: defNodesSL body
  | s@(.classDef name body lineno endLineno) =>
      ⟨"Class", name, s, lineno, endLineno⟩ :: defNodesSL body
  | .ifStmt _ body orelse _ => defNodesSL body ++ defNodesSL orelse
  | .forStmt _ _ body orelse _ => defNodesSL body ++ defNodesSL orelse
  | .whileStmt _ body orelse _ => defNodesSL body ++ defNodesSL orelse
  | .withStmt _ body _ => defNodesSL body
  | .tryStmt body handlers orelse finalbody _ =>
      defNodesSL body ++ defNodesHL handlers ++ defNodesSL orelse ++ defNodesSL finalbody
  | .matchStmt _ cases _ => defNodesML cases
  | _ => []

/-- Definition nodes of a statement list. -/
def defNodesSL : SL → List DefView
  | .nil => []
  | .cons s tl => defNodesS s ++ defNodesSL tl

/-- Definition nodes under exception handlers. -/
def defNodesHL : HL → List DefView
  | .nil => []
  | .cons (.mk _ body _) tl => defNodesSL body ++ defNodesHL tl

/-- Definition nodes under `match` cases. -/
def defNodesML : ML → List DefView
  | .nil => []
  | .cons (.mk body) tl => defNodesSL body ++ defNodesML tl

end

/-! ### The scope-aware undefined-name rule -/

/-- The source derives `_BUILTINS` from `dir(builtins)` of the host
interpreter; it is embedded as a fixed representative list of standard
built-in names (the claims do not depend on the exact extent). -/
def BUILTINS : List String :=
  ["print", "len", "range", "int", "str", "float", "bool", "list", "dict",
   "set", "tuple", "open", "sorted", "max", "min", "sum", "abs", "enumerate",
   "zip", "map", "filter", "isinstance", "type", "id", "repr", "hash",
   "getattr", "setattr", "hasattr", "iter", "next", "super", "object",
   "Exception", "BaseException", "ValueError", "TypeError", "KeyError",
   "RuntimeError", "StopIteration", "None", "True", "False"]

/-- All argument names of an `ast.arguments` node
(`args + kwonlyargs`, then `vararg` and `kwarg`). -/
def argNames (a : PArgs) : List String :=
  a.args ++ a.kwonlyargs ++ a.vararg.toList ++ a.kwarg.toList

/-- `name.split(".")[0]` for a dotted import. -/
def headDotted (s : String) : String :=
  String.mk (splitOnceChar '.' s.data).1

mutual

/-- `UndefinedNameRule._names_from_target`: names of a `Name` target or
of a tuple/list target, recursively. -/
def nftE : Expr → List String
  | .nameE id _ _ => [id]
  | .tupleE elts _ _ => nftEL elts
  | .listE elts _ _ => nftEL elts
  | _ => []

/-- `_names_from_target` over the elements of a tuple/list target. -/
def nftEL : EL → List String
  | .nil => []
  | .cons e tl => nftE e ++ nftEL tl

end

mutual

/-- The names added to a scope's defined set by the walk of
`_collect_defined_in_scope` when it meets this statement:
definition names, argument names, assignment/loop/`with` targets, and
imported names — from everywhere in the subtree, nested scopes included. -/
def cdS : Stmt → List String
  | .functionDef name args body _ _ => name :: (argNames args ++ cdSL body)
  | .asyncFunctionDef name args body _ _ => name :: (argNames args ++ cdSL body)
  | .classDef name body _ _ => name :: cdSL body
  | .assign targets value _ => nftEL targets ++ cdEL targets ++ cdE value
  | .exprStmt value _ => cdE value
  | .ret value _ => cdOE value
  | .ifStmt test body orelse _ => cdE test ++ cdSL body ++ cdSL orelse
  | .forStmt target iter body orelse _ =>
      nftE target ++ cdE target ++ cdE iter ++ cdSL body ++ cdSL orelse
  | .whileStmt test body orelse _ => cdE test ++ cdSL body ++ cdSL orelse
  | .withStmt items body _ => cdWL items ++ cdSL body
  | .tryStmt body handlers orelse finalbody _ =>
      cdSL body ++ cdHL handlers ++ cdSL orelse ++ cdSL finalbody
  | .importS names _ => names.map (fun a => a.asname.getD (headDotted a.name))
  | .importFromS _ names _ =>
      names.filterMap (fun a => if a.name = "*" then none else some (a.asname.getD a.name))
  | .matchStmt subject cases _ => cdE subject ++ cdML cases
  | .passS _ => []

/-- Defined-name collection over a statement list. -/
def cdSL : SL → List String
  | .nil => []
  | .cons s tl => cdS s ++ cdSL tl

/-- Defined-name collection inside an expression (comprehension
generator targets are the only contributors). -/
def cdE : Expr → List String
  | .nameE _ _ _ => []
  | .constE _ _ => []
  | .call func args _ => cdE func ++ cdEL args
  | .attributeE value _ _ => cdE value
  | .boolOp values _ => cdEL values
  | .ifExp test body orelse _ => cdE test ++ cdE body ++ cdE orelse
  | .compare left _ comparators _ => cdE left ++ cdEL comparators
  | .tupleE elts _ _ => cdEL elts
  | .listE elts _ _ => cdEL elts
  | .listComp elt generators _ => cdE elt ++ cdCL generators
  | .setComp elt generators _ => cdE elt ++ cdCL generators
  | .generatorExp elt generators _ => cdE elt ++ cdCL generators
  | .dictComp key value generators _ => cdE key ++ cdE value ++ cdCL generators

/-- Defined-name collection over an expression list. -/
def cdEL : EL → List String
  | .nil => []
  | .cons e tl => cdE e ++ cdEL tl

/-- Defined-name collection under an optional expression. -/
def cdOE : OE → List String
  | .noneO => []
  | .someO e => cdE e

/-- Defined-name collection in a comprehension clause: its target's
names, plus whatever nests deeper. -/
def cdC : Comp → List String
  | .mk target iter ifs => nftE target ++ cdE target ++ cdE iter ++ cdEL ifs

/-- Defined-name collection over comprehension clauses. -/
def cdCL : CL → List String
  | .nil => []
  | .cons c tl => cdC c ++ cdCL tl

/-- Defined-name collection in a `with` item: its `as` targets. -/
def cdW : WithItem → List String
  | .mk contextExpr optionalVars =>
      (match optionalVars with
       | .noneO => []
       | .someO t => nftE t) ++ cdE contextExpr ++ cdOE optionalVars

/-- Defined-name collection over `with` items. -/
def cdWL : WL → List String
  | .nil => []
  | .cons w tl => cdW w ++ cdWL tl

/-- Defined-name collection in a handler (the `as` name is not added,
matching the source). -/
def cdH : Handler → List String
  | .mk typ body _ => cdOE typ ++ cdSL body

/-- Defined-name collection over handlers. -/
def cdHL : HL → List String
  | .nil => []
  | .cons h tl => cdH h ++ cdHL tl

/-- Defined-name collection in a `match` case. -/
def cdM : MatchCase → List String
  | .mk body => cdSL body

/-- Defined-name collection over `match` cases. -/
def cdML : ML → List String
  | .nil => []
  | .cons m tl => cdM m ++ cdML tl

end

/-- `UndefinedNameRule._collect_defined_in_scope`: built-ins, the dunder
module attributes, and everything the walk of the body adds. -/
def collectDefinedScope (body : SL) : List String :=
  BUILTINS ++ ["__name__", "__file__"] ++ cdSL body

mutual

/-- All `Name` nodes in `Load` context in a statement's subtree, with
their line numbers, in traversal order. -/
def loadsS : Stmt → List (String × Nat)
  | .functionDef _ _ body _ _ => loadsSL body
  | .asyncFunctionDef _ _ body _ _ => loadsSL body
  | .classDef _ body _ _ => loadsSL body
  | .assign targets value _ => loadsEL targets ++ loadsE value
  | .exprStmt value _ => loadsE value
  | .ret value _ => loadsOE value
  | .ifStmt test body orelse _ => loadsE test ++ loadsSL body ++ loadsSL orelse
  | .forStmt target iter body orelse _ =>
      loadsE target ++ loadsE iter ++ loadsSL body ++ loadsSL orelse
  | .whileStmt test body orelse _ => loadsE test ++ loadsSL body ++ loadsSL orelse
  | .withStmt items body _ => loadsWL items ++ loadsSL body
  | .tryStmt body handlers orelse finalbody _ =>
      loadsSL body ++ loadsHL handlers ++ loadsSL orelse ++ loadsSL finalbody
  | .importS _ _ => []
  | .importFromS _ _ _ => []
  | .matchStmt subject cases _ => loadsE subject ++ loadsML cases
  | .passS _ => []

/-- Name loads of a statement list. -/
def loadsSL : SL → List (String × Nat)
  | .nil => []
  | .cons s tl => loadsS s ++ loadsSL tl

/-- Name loads of an expression's subtree. -/
def loadsE : Expr → List (String × Nat)
  | .nameE id ctx lineno => if ctx = .load then [(id, lineno)] else []
  | .constE _ _ => []
  | .call func args _ => loadsE func ++ loadsEL args
  | .attributeE value _ _ => loadsE value
  | .boolOp values _ => loadsEL values
  | .ifExp test body orelse _ => loadsE test ++ loadsE body ++ loadsE orelse
  | .compare left _ comparators _ => loadsE left ++ loadsEL comparators
  | .tupleE elts _ _ => loadsEL elts
  | .listE elts _ _ => loadsEL elts
  | .listComp elt generators _ => loadsE elt ++ loadsCL generators
  | .setComp elt generators _ => loadsE elt ++ loadsCL generators
  | .generatorExp elt generators _ => loadsE elt ++ loadsCL generators
  | .dictComp key value generators _ => loadsE key ++ loadsE value ++ loadsCL generators

/-- Name loads of an expression list. -/
def loadsEL : EL → List (String × Nat)
  | .nil => []
  | .cons e tl => loadsE e ++ loadsEL tl

/-- Name loads under an optional expression. -/
def loadsOE : OE → List (String × Nat)
  | .noneO => []
  | .someO e => loadsE e

/-- Name loads of a comprehension clause. -/
def loadsC : Comp → List (String × Nat)
  | .mk target iter ifs => loadsE target ++ loadsE iter ++ loadsEL ifs

/-- Name loads of comprehension clauses. -/
def loadsCL : CL → List (String × Nat)
  | .nil => []
  | .cons c tl => loadsC c ++ loadsCL tl

/-- Name loads of a `with` item. -/
def loadsW : WithItem → List (String × Nat)
  | .mk contextExpr optionalVars => loadsE contextExpr ++ loadsOE optionalVars

/-- Name loads of `with` items. -/
def loadsWL : WL → List (String × Nat)
  | .nil => []
  | .cons w tl => loadsW w ++ loadsWL tl

/-- Name loads of a handler. -/
def loadsH : Handler → List (String × Nat)
  | .mk typ body _ => loadsOE typ ++ loadsSL body

/-- Name loads of handlers. -/
def loadsHL : HL → List (String × Nat)
  | .nil => []
  | .cons h tl => loadsH h ++ loadsHL tl

/-- Name loads of a `match` case. -/
def loadsM : MatchCase → List (String × Nat)
  | .mk body => loadsSL body

/-- Name loads of `match` cases. -/
def loadsML : ML → List (String × Nat)
  | .nil => []
  | .cons m tl => loadsM m ++ loadsML tl

end

/-- One function or async-function definition, as enumerated by
`ast.walk` over the whole tree. -/
structure FnView where
  name : String
  args : PArgs
  body : SL

mutual

/-- All function/async-function nodes anywhere in a statement's
subtree, nested ones included. -/
def allFnS : Stmt → List FnView
  | .functionDef name args body _ _ => ⟨name, args, body⟩ :: allFnSL body
  | .asyncFunctionDef name args body _ _ => ⟨name, args, body⟩ :: allFnSL body
  | .classDef _ body _ _ => allFnSL body
  | .ifStmt _ body orelse _ => allFnSL body ++ allFnSL orelse
  | .forStmt _ _ body orelse _ => allFnSL body ++ allFnSL orelse
  | .whileStmt _ body orelse _ => allFnSL body ++ allFnSL orelse
  | .withStmt _ body _ => allFnSL body
  | .tryStmt body handlers orelse finalbody _ =>
      allFnSL body ++ allFnHL handlers ++ allFnSL orelse ++ allFnSL finalbody
  | .matchStmt _ cases _ => allFnML cases
  | _ => []

/-- Function nodes of a statement list. -/
def allFnSL : SL → List FnView
  | .nil => []
  | .cons s tl => allFnS s ++ allFnSL tl

/-- Function nodes under handlers. -/
def allFnHL : HL → List FnView
  | .nil => []
  | .cons (.mk _ body _) tl => allFnSL body ++ allFnHL tl

/-- Function nodes under `match` cases. -/
def allFnML : ML → List FnView
  | .nil => []
  | .cons (.mk body) tl => allFnSL body ++ allFnML tl

end

/-- The static defaults of `UndefinedNameRule`. -/
def undefinedNameMeta : RuleMeta :=
  ⟨"Correctness", "HIGH", "Name used before definition/import."⟩

/-- The finding emitted for one possibly-undefined name occurrence. -/
def undefIssue (id : String) (lineno : Nat) : Issue :=
  ruleMake undefinedNameMeta (.int lineno)
    ("Name \"" ++ id ++ "\" might be undefined in this scope.")

/-- Is this top-level statement skipped by the shallow module pass? -/
def isDefOrClass : Stmt → Bool
  | .functionDef _ _ _ _ _ => true
  | .asyncFunctionDef _ _ _ _ _ => true
  | .classDef _ _ _ _ => true
  | _ => false

/-- The shallow module-scope pass: walk each top-level statement that is
not a definition, flagging loaded names outside the module-defined set. -/
def modulePass (moduleDefined : List String) : SL → List Issue
  | .nil => []
  | .cons top tl =>
      (if isDefOrClass top then []
       else (loadsS top).filterMap fun idl =>
         if idl.1 ∈ moduleDefined then none else some (undefIssue idl.1 idl.2)) ++
        modulePass moduleDefined tl

/-- The per-function pass: its own defined set, its parameter names, and
the module-defined set are visible; flag the rest. -/
def functionPass (moduleDefined : List String) (fn : FnView) : List Issue :=
  let fnDefined := collectDefinedScope fn.body
  let fnArgs := fn.args.args ++ fn.args.kwonlyargs ++ fn.args.vararg.toList ++ fn.args.kwarg.toList
  let visible := moduleDefined ++ fnArgs ++ fnDefined
  (loadsSL fn.body).filterMap fun idl =>
    if idl.1 ∈ visible then none else some (undefIssue idl.1 idl.2)

/-- `UndefinedNameRule.check`: the shallow module pass followed by one
pass per function node found anywhere in the tree. -/
def undefinedNameCheck (_filename : String) (tree : Option Module) (_text : String) :
    List Issue :=
  match tree with
  | none => []
  | some m =>
    let moduleDefined := collectDefinedScope m.body
    modulePass moduleDefined m.body ++
      (allFnSL m.body).flatMap (functionPass moduleDefined)

/-! ### The concurrency rule -/

/-- The static defaults of `ConcurrencyRule`. -/
def concurrencyMeta : RuleMeta :=
  ⟨"Concurrency", "MEDIUM", "Race conditions, zombie processes, or platform-specific hangs."⟩

mutual

/-- Largest `lineno` in a statement's subtree (`max` over the walk;
nodes without a line number contribute the supplied default in the
source, which never exceeds the maximum here). -/
def mlS : Stmt → Nat
  | .functionDef _ _ body l _ => max l (mlSL body)
  | .asyncFunctionDef _ _ body l _ => max l (mlSL body)
  | .classDef _ body l _ => max l (mlSL body)
  | .assign targets value l => max l (max (mlEL targets) (mlE value))
  | .exprStmt value l => max l (mlE value)
  | .ret value l => max l (mlOE value)
  | .ifStmt test body orelse l => max l (max (mlE test) (max (mlSL body) (mlSL orelse)))
  | .forStmt target iter body orelse l =>
      max l (max (mlE target) (max (mlE iter) (max (mlSL body) (mlSL orelse))))
  | .whileStmt test body orelse l => max l (max (mlE test) (max (mlSL body) (mlSL orelse)))
  | .withStmt items body l => max l (max (mlWL items) (mlSL body))
  | .tryStmt body handlers orelse finalbody l =>
      max l (max (mlSL body) (max (mlHL handlers) (max (mlSL orelse) (mlSL finalbody))))
  | .importS _ l => l
  | .importFromS _ _ l => l
  | .matchStmt subject cases l => max l (max (mlE subject) (mlML cases))
  | .passS l => l

/-- Largest line number of a statement list. -/
def mlSL : SL → Nat
  | .nil => 0
  | .cons s tl => max (mlS s) (mlSL tl)

/-- Largest line number of an expression's subtree. -/
def mlE : Expr → Nat
  | .nameE _ _ l => l
  | .constE _ l => l
  | .call func args l => max l (max (mlE func) (mlEL args))
  | .attributeE value _ l => max l (mlE value)
  | .boolOp values l => max l (mlEL values)
  | .ifExp test body orelse l => max l (max (mlE test) (max (mlE body) (mlE orelse)))
  | .compare left _ comparators l => max l (max (mlE left) (mlEL comparators))
  | .tupleE elts _ l => max l (mlEL elts)
  | .listE elts _ l => max l (mlEL elts)
  | .listComp elt generators l => max l (max (mlE elt) (mlCL generators))
  | .setComp elt generators l => max l (max (mlE elt) (mlCL generators))
  | .generatorExp elt generators l => max l (max (mlE elt) (mlCL generators))
  | .dictComp key value generators l =>
      max l (max (mlE key) (max (mlE value) (mlCL generators)))

/-- Largest line number of an expression list. -/
def mlEL : EL → Nat
  | .nil => 0
  | .cons e tl => max (mlE e) (mlEL tl)

/-- Largest line number under an optional expression. -/
def mlOE : OE → Nat
  | .noneO => 0
  | .someO e => mlE e

/-- Largest line number of a comprehension clause. -/
def mlC : Comp → Nat
  | .mk target iter ifs => max (mlE target) (max (mlE iter) (mlEL ifs))

/-- Largest line number of comprehension clauses. -/
def mlCL : CL → Nat
  | .nil => 0
  | .cons c tl => max (mlC c) (mlCL tl)

/-- Largest line number of a `with` item. -/
def mlW : WithItem → Nat
  | .mk contextExpr optionalVars => max (mlE contextExpr) (mlOE optionalVars)

/-- Largest line number of `with` items. -/
def mlWL : WL → Nat
  | .nil => 0
  | .cons w tl => max (mlW w) (mlWL tl)

/-- Largest line number of a handler. -/
def mlH : Handler → Nat
  | .mk typ body l => max l (max (mlOE typ) (mlSL body))

/-- Largest line number of handlers. -/
def mlHL : HL → Nat
  | .nil => 0
  | .cons h tl => max (mlH h) (mlHL tl)

/-- Largest line number of a `match` case. -/
def mlM : MatchCase → Nat
  | .mk body => mlSL body

/-- Largest line number of `match` cases. -/
def mlML : ML → Nat
  | .nil => 0
  | .cons m tl => max (mlM m) (mlML tl)

end

/-- Is this `if` test the `__name__ == "__main__"` pattern? -/
def isMainTest : Expr → Bool
  | .compare (.nameE "__name__" _ _) ops comparators _ =>
      (match ops with
       | .eq :: _ => true
       | _ => false) &&
      (match comparators with
       | .cons (.constE (.str "__main__") _) _ => true
       | _ => false)
  | _ => false

mutual

/-- `_collect_main_blocks`: every `if __name__ == "__main__":` node in
the walk, as its `(start, max line of subtree)` range. -/
def mbS : Stmt → List (Nat × Nat)
  | s@(.ifStmt test body orelse l) =>
      (if isMainTest test then [(l, max l (mlS s))] else []) ++ mbSL body ++ mbSL orelse
  | .functionDef _ _ body _ _ => mbSL body
  | .asyncFunctionDef _ _ body _ _ => mbSL body
  | .classDef _ body _ _ => mbSL body
  | .forStmt _ _ body orelse _ => mbSL body ++ mbSL orelse
  | .whileStmt _ body orelse _ => mbSL body ++ mbSL orelse
  | .withStmt _ body _ => mbSL body
  | .tryStmt body handlers orelse finalbody _ =>
      mbSL body ++ mbHL handlers ++ mbSL orelse ++ mbSL finalbody
  | .matchStmt _ cases _ => mbML cases
  | _ => []

/-- Main-guard blocks of a statement list. -/
def mbSL : SL → List (Nat × Nat)
  | .nil => []
  | .cons s tl => mbS s ++ mbSL tl

/-- Main-guard blocks under handlers. -/
def mbHL : HL → List (Nat × Nat)
  | .nil => []
  | .cons (.mk _ body _) tl => mbSL body ++ mbHL tl

/-- Main-guard blocks under `match` cases. -/
def mbML : ML → List (Nat × Nat)
  | .nil => []
  | .cons (.mk body) tl => mbSL body ++ mbML tl

end

/-- `_in_main`: does the line fall in one of the guard ranges? -/
def inMain (lineno : Nat) (blocks : List (Nat × Nat)) : Bool :=
  blocks.any fun ab => ab.1 ≤ lineno && lineno ≤ ab.2

mutual

/-- All `ImportFrom` nodes in a statement's subtree. -/
def ifromS : Stmt → List (Option String × List PAlias)
  | .importFromS module names _ => [(module, names)]
  | .functionDef _ _ body _ _ => ifromSL body
  | .asyncFunctionDef _ _ body _ _ => ifromSL body
  | .classDef _ body _ _ => ifromSL body
  | .ifStmt _ body orelse _ => ifromSL body ++ ifromSL orelse
  | .forStmt _ _ body orelse _ => ifromSL body ++ ifromSL orelse
  | .whileStmt _ body orelse _ => ifromSL body ++ ifromSL orelse
  | .withStmt _ body _ => ifromSL body
  | .tryStmt body handlers orelse finalbody _ =>
      ifromSL body ++ ifromHL handlers ++ ifromSL orelse ++ ifromSL finalbody
  | .matchStmt _ cases _ => ifromML cases
  | _ => []

/-- `ImportFrom` nodes of a statement list. -/
def ifromSL : SL → List (Option String × List PAlias)
  | .nil => []
  | .cons s tl => ifromS s ++ ifromSL tl

/-- `ImportFrom` nodes under handlers. -/
def ifromHL : HL → List (Option String × List PAlias)
  | .nil => []
  | .cons (.mk _ body _) tl => ifromSL body ++ ifromHL tl

/-- `ImportFrom` nodes under `match` cases. -/
def ifromML : ML → List (Option String × List PAlias)
  | .nil => []
  | .cons (.mk body) tl => ifromSL body ++ ifromML tl

end

/-- Tracked aliases of `from M import C` for module `M`, constructor `C`. -/
def importedNames (ifs : List (Option String × List PAlias)) (module ctor : String) :
    List String :=
  ifs.flatMap fun mn =>
    if mn.1 = some module then
      mn.2.filterMap fun a => if a.name = ctor then some (a.asname.getD a.name) else none
    else []

/-- `ConcurrencyRule._is_ctor` applied to a call's function expression:
a `module.ctor` attribute call, or a plain name among the tracked
aliases of the module's imported constructors. -/
def isCtorF (f : Expr) (names : List String) (module ctor : String) : Bool :=
  match f with
  | .attributeE (.nameE vid _ _) attr _ => vid = module && attr = ctor
  | .nameE id _ _ => id ∈ names
  | _ => false

/-- The two node shapes `analyze_scope` reacts to, in traversal order:
assignment nodes and call nodes. -/
inductive CEvent where
  | evAssign (targets : EL) (value : Expr)
  | evCall (func : Expr) (lineno : Nat)

mutual

/-- The assignment and call nodes of a statement's subtree, in preorder
(the walk of `analyze_scope` descends into nested definitions too). -/
def evS : Stmt → List CEvent
  | .functionDef _ _ body _ _ => evSL body
  | .asyncFunctionDef _ _ body _ _ => evSL body
  | .classDef _ body _ _ => evSL body
  | .assign targets value _ => .evAssign targets value :: (evEL targets ++ evE value)
  | .exprStmt value _ => evE value
  | .ret value _ => evOE value
  | .ifStmt test body orelse _ => evE test ++ evSL body ++ evSL orelse
  | .forStmt target iter body orelse _ =>
      evE target ++ evE iter ++ evSL body ++ evSL orelse
  | .whileStmt test body orelse _ => evE test ++ evSL body ++ evSL orelse
  | .withStmt items body _ => evWL items ++ evSL body
  | .tryStmt body handlers orelse finalbody _ =>
      evSL body ++ evHL handlers ++ evSL orelse ++ evSL finalbody
  | .importS _ _ => []
  | .importFromS _ _ _ => []
  | .matchStmt subject cases _ => evE subject ++ evML cases
  | .passS _ => []

/-- Events of a statement list. -/
def evSL : SL → List CEvent
  | .nil => []
  | .cons s tl => evS s ++ evSL tl

/-- Events of an expression's subtree. -/
def evE : Expr → List CEvent
  | .nameE _ _ _ => []
  | .constE _ _ => []
  | .call func args l => .evCall func l :: (evE func ++ evEL args)
  | .attributeE value _ _ => evE value
  | .boolOp values _ => evEL values
  | .ifExp test body orelse _ => evE test ++ evE body ++ evE orelse
  | .compare left _ comparators _ => evE left ++ evEL comparators
  | .tupleE elts _ _ => evEL elts
  | .listE elts _ _ => evEL elts
  | .listComp elt generators _ => evE elt ++ evCL generators
  | .setComp elt generators _ => evE elt ++ evCL generators
  | .generatorExp elt generators _ => evE elt ++ evCL generators
  | .dictComp key value generators _ => evE key ++ evE value ++ evCL generators

/-- Events of an expression list. -/
def evEL : EL → List CEvent
  | .nil => []
  | .cons e tl => evE e ++ evEL tl

/-- Events under an optional expression. -/
def evOE : OE → List CEvent
  | .noneO => []
  | .someO e => evE e

/-- Events of a comprehension clause. -/
def evC : Comp → List CEvent
  | .mk target iter ifs => evE target ++ evE iter ++ evEL ifs

/-- Events of comprehension clauses. -/
def evCL : CL → List CEvent
  | .nil => []
  | .cons c tl => evC c ++ evCL tl

/-- Events of a `with` item. -/
def evW : WithItem → List CEvent
  | .mk contextExpr optionalVars => evE contextExpr ++ evOE optionalVars

/-- Events of `with` items. -/
def evWL : WL → List CEvent
  | .nil => []
  | .cons w tl => evW w ++ evWL tl

/-- Events of a handler. -/
def evH : Handler → List CEvent
  | .mk typ body _ => evOE typ ++ evSL body

/-- Events of handlers. -/
def evHL : HL → List CEvent
  | .nil => []
  | .cons h tl => evH h ++ evHL tl

/-- Events of a `match` case. -/
def evM : MatchCase → List CEvent
  | .mk body => evSL body

/-- Events of `match` cases. -/
def evML : ML → List CEvent
  | .nil => []
  | .cons m tl => evM m ++ evML tl

end

/-- The mutable state of one `analyze_scope` walk. -/
structure ConcState where
  threadVars : List String
  procVars : List String
  threadStarted : List String
  threadJoined : List String
  procStarted : List String
  procJoined : List String
  threadStartLines : List (String × Nat)
  procStartLines : List (String × Nat)
  issues : List Issue

/-- `dict.setdefault`. -/
def setdefault (k : String) (v : Nat) (m : List (String × Nat)) : List (String × Nat) :=
  if m.any (fun p => p.1 = k) then m else m ++ [(k, v)]

/-- `dict.get(k, d)`. -/
def lookupD (k : String) (d : Nat) (m : List (String × Nat)) : Nat :=
  match m.find? (fun p => p.1 = k) with
  | Option.some p => p.2
  | Option.none => d

/-- Add to a tracked set. -/
def addName (x : String) (l : List String) : List String :=
  if x ∈ l then l else l ++ [x]

/-- The `Name` targets of an assignment. -/
def nameTargets : EL → List String
  | .nil => []
  | .cons (.nameE id _ _) tl => id :: nameTargets tl
  | .cons _ tl => nameTargets tl

/-- The walk body of `analyze_scope` on one node. -/
def concStep (tnames pnames poolnames : List String) (mainBlocks : List (Nat × Nat))
    (inModule : Bool) (st : ConcState) : CEvent → ConcState
  | .evAssign targets value =>
    match value with
    | .call f _ _ =>
      let st :=
        if isCtorF f tnames "threading" "Thread" then
          { st with threadVars := (nameTargets targets).foldl (fun l x => addName x l) st.threadVars }
        else st
      if isCtorF f pnames "multiprocessing" "Process" then
        { st with procVars := (nameTargets targets).foldl (fun l x => addName x l) st.procVars }
      else st
    | _ => st
  | .evCall func lineno =>
    let st :=
      match func with
      | .attributeE base attr _ =>
        let st :=
          match base with
          | .nameE id _ _ =>
            let st := if attr = "start" && id ∈ st.threadVars then
                { st with threadStarted := addName id st.threadStarted,
                          threadStartLines := setdefault id lineno st.threadStartLines }
              else st
            let st := if attr = "join" && id ∈ st.threadVars then
                { st with threadJoined := addName id st.threadJoined } else st
            let st := if attr = "start" && id ∈ st.procVars then
                { st with procStarted := addName id st.procStarted,
                          procStartLines := setdefault id lineno st.procStartLines }
              else st
            if attr = "join" && id ∈ st.procVars then
              { st with procJoined := addName id st.procJoined } else st
          | _ => st
        match base with
        | .call bf _ _ =>
          if attr = "start" then
            let st := if isCtorF bf tnames "threading" "Thread" then
                { st with issues := st.issues ++ [ruleMake concurrencyMeta (.int lineno)
                  "Thread started without a matching join(); ensure a join() in this code path."] }
              else st
            if isCtorF bf pnames "multiprocessing" "Process" then
              { st with issues := st.issues ++ [ruleMake concurrencyMeta (.int lineno)
                "Process started without a matching join(); ensure a join() in this code path."] }
            else st
          else st
        | _ => st
      | _ => st
    if inModule &&
        (isCtorF func poolnames "multiprocessing" "Pool" ||
         isCtorF func pnames "multiprocessing" "Process") &&
        !inMain lineno mainBlocks then
      { st with issues := st.issues ++ [ruleMake concurrencyMeta (.int lineno)
        "multiprocessing object created at import time; protect with if __name__ == '__main__':"] }
    else st

/-- `analyze_scope`: walk the body, then report every started-but-never
joined variable of the scope, threads first, in sorted order. -/
def analyzeScope (tnames pnames poolnames : List String) (mainBlocks : List (Nat × Nat))
    (body : SL) (scopeName : String) (inModule : Bool) : List Issue :=
  let st := (evSL body).foldl (concStep tnames pnames poolnames mainBlocks inModule)
    ⟨[], [], [], [], [], [], [], [], []⟩
  st.issues ++
    ((sortedDedup (st.threadStarted.filter (fun v => v ∉ st.threadJoined))).map fun v =>
      ruleMake concurrencyMeta (.int (lookupD v 1 st.threadStartLines))
        ("Thread \"" ++ v ++ "\" started but not joined in scope \"" ++ scopeName ++ "\".")) ++
    ((sortedDedup (st.procStarted.filter (fun v => v ∉ st.procJoined))).map fun v =>
      ruleMake concurrencyMeta (.int (lookupD v 1 st.procStartLines))
        ("Process \"" ++ v ++ "\" started but not joined in scope \"" ++ scopeName ++ "\"."))

/-- `ConcurrencyRule.check`: tracked import aliases and main-guard
blocks are collected from the whole tree, then the module body and each
function body are analyzed as separate scopes. -/
def concurrencyCheck (_filename : String) (tree : Option Module) (_text : String) :
    List Issue :=
  match tree with
  | none => []
  | some m =>
    let mainBlocks := mbSL m.body
    let ifs := ifromSL m.body
    let tnames := importedNames ifs "threading" "Thread"
    let pnames := importedNames ifs "multiprocessing" "Process"
    let poolnames := importedNames ifs "multiprocessing" "Pool"
    analyzeScope tnames pnames poolnames mainBlocks m.body "<module>" true ++
      (allFnSL m.body).flatMap fun fn =>
        analyzeScope tnames pnames poolnames mainBlocks fn.body fn.name false

/-! ### The TODO/FIXME rule and the per-file driver loop -/

/-- The static defaults of `TodoComments`. -/
def todoMeta : RuleMeta := ⟨"Process", "LOW", "Outstanding work items; ensure tracking."⟩

/-- The scan loop of `TodoComments.check` (lines numbered from 1). -/
def todoScan (i : Nat) : List String → List Issue
  | [] => []
  | line :: rest =>
    let up := line.data.map Char.toUpper
    (if listInfixOf "TODO".data up || listInfixOf "FIXME".data up then
      [ruleMake todoMeta (.int i) "Found TODO/FIXME. Confirm ticket/issue reference or resolve."]
     else []) ++ todoScan (i + 1) rest

/-- `TodoComments.check`: scans the raw text; the tree is not consulted. -/
def todoCheck (_filename : String) (_tree : Option Module) (text : String) : List Issue :=
  todoScan 1 (splitLines text)

/-- The type of a rule's `check` method. -/
abbrev RuleCheck := String → Option Module → String → List Issue

/-- The truncation step of `run_on_file` (`max_lines` of 0 is falsy in
Python, hence ignored). -/
def truncIssue (maxLines : Option Nat) (iss : Issue) : Issue :=
  match maxLines with
  | Option.none => iss
  | Option.some m =>
    if m ≠ 0 ∧ iss.impacted_lines.data.contains ',' then
      let parts := splitOnChar ',' iss.impacted_lines.data
      if m < parts.length then
        let kept := joinWithChar ',' (parts.take m) ++
          ',' :: '+' :: natChars (parts.length - m) ++ " more".data
        { iss with impacted_lines := String.mk kept }
      else iss
    else iss

/-- The loop of `run_on_file` after reading and parsing: run every rule,
keep the findings at or above the minimum priority, truncating long
comma lists (reading the file and parsing the text happen upstream and
are modelled by the `tree`/`text` arguments). -/
def runChecks (rules : List RuleCheck) (path : String) (tree : Option Module)
    (text : String) (minPriority : String) (maxLines : Option Nat) : List Issue :=
  rules.foldl (fun acc r =>
    acc ++ (r path tree text).filterMap fun iss =>
      if rankD 1 minPriority ≤ rankD 1 iss.priority then some (truncIssue maxLines iss)
      else none) []

/-! ### Specification-side restatements used by the claims -/

/-- The `out` pieces of `_compress_lines`, at the line-item level. -/
def itemsRuns (start prev : Nat) : List Nat → List LineItem
  | [] => [if start = prev then .single start else .range start prev]
  | x :: xs =>
    if x = prev + 1 then itemsRuns start x xs
    else (if start = prev then .single start else .range start prev) :: itemsRuns x x xs

/-- Closed form of the merge: one entry per distinct key in
first-occurrence order, each rebuilt from its key's input group. -/
def mergeSpecEntries (items : List (String × Issue)) : List (String × Issue) :=
  (dedupFirst (items.map mergeKey)).map (fun k => groupOut (groupFor items k))

/-- The priorities of the input pairs carrying a key. -/
def groupPriorities (items : List (String × Issue)) (k : MergeKey) : List String :=
  (filterKey k items).map (fun fi => fi.2.priority)

/-- Claim-side complexity counting: one per conditional, loop,
exception-handling `try`, `with` block, boolean operator, conditional
expression, comprehension clause and `match` statement in the subtree. -/
def complexityConstructCount (s : Stmt) : Nat :=
  ((kindsS s).count .kIf) + ((kindsS s).count .kFor) + ((kindsS s).count .kWhile) +
  ((kindsS s).count .kTry) + ((kindsS s).count .kWith) + ((kindsS s).count .kBoolOp) +
  ((kindsS s).count .kIfExp) + ((kindsS s).count .kComprehension) + ((kindsS s).count .kMatch)

/-- Specification-side emission for one definition node: a finding
exactly when a threshold is strictly exceeded. -/
def emitDef (maxC : Nat) (maxL : Int) (filename : String) (d : DefView) : Option Issue :=
  if maxC < complexityScore d.node ∨ maxL < locOf d.lineno d.endLineno then
    some (ruleReport ⟨"General", "LOW", "Informational"⟩ (some complexityCATEGORY)
      (some complexityPRIORITY) d.lineno (some complexityIMPACT)
      (complexityMessage filename d.kind d.name (complexityScore d.node)
        (locOf d.lineno d.endLineno) maxC maxL))
  else none

/-! ## Lemmas -/

theorem digitChar_digit (d : Nat) : isDigitChar (digitChar d) = true := by
  unfold digitChar
  split <;> decide

theorem charDigit_digitChar (d : Nat) (h : d < 10) : charDigit (digitChar d) = d := by
  interval_cases d <;> decide

theorem digit_ne_comma {c : Char} (h : isDigitChar c = true) : ¬ c = ',' := by
  rintro rfl
  exact absurd h (by decide)

theorem digit_ne_dash {c : Char} (h : isDigitChar c = true) : ¬ c = '-' := by
  rintro rfl
  exact absurd h (by decide)

theorem digit_ne_plus {c : Char} (h : isDigitChar c = true) : ¬ c = '+' := by
  rintro rfl
  exact absurd h (by decide)

theorem digit_not_ws {c : Char} (h : isDigitChar c = true) : c.isWhitespace = false := by
  by_contra hw
  rw [Bool.not_eq_false] at hw
  simp only [Char.isWhitespace, Bool.or_eq_true, decide_eq_true_eq] at hw
  rcases hw with ((h1 | h1) | h1) | h1 <;> (subst h1; exact absurd h (by decide))

theorem foldl_digits_some (l : List Char) (h : ∀ c ∈ l, isDigitChar c = true) (a : Nat) :
    l.foldl (fun acc c => acc.bind fun x =>
      if isDigitChar c then some (x * 10 + charDigit c) else none) (some a)
    = some (l.foldl (fun x c => x * 10 + charDigit c) a) := by
  induction l generalizing a with
  | nil => rfl
  | cons c cs ih =>
    have hc : isDigitChar c = true := h c (List.mem_cons_self c cs)
    simp only [List.foldl_cons, Option.bind, hc, if_pos]
    exact ih (fun x hx => h x (List.mem_cons_of_mem c hx)) _

theorem digitsToNat_of_digits (c : Char) (cs : List Char)
    (h : ∀ x ∈ c :: cs, isDigitChar x = true) :
    digitsToNat (c :: cs) = some ((c :: cs).foldl (fun x d => x * 10 + charDigit d) 0) := by
  rw [show digitsToNat (c :: cs) = (c :: cs).foldl (fun acc d => acc.bind fun a =>
        if isDigitChar d then some (a * 10 + charDigit d) else none) (some 0) from rfl]
  exact foldl_digits_some _ h 0

theorem natCharsAux_spec (fuel : Nat) : ∀ n, n < fuel →
    natCharsAux fuel n ≠ [] ∧ (∀ c ∈ natCharsAux fuel n, isDigitChar c = true) ∧
    ∀ a, (natCharsAux fuel n).foldl (fun x c => x * 10 + charDigit c) a
      = a * 10 ^ (natCharsAux fuel n).length + n := by
  induction fuel with
  | zero => intro n hn; exact absurd hn (Nat.not_lt_zero n)
  | succ fuel ih =>
    intro n hn
    by_cases h10 : n < 10
    · refine ⟨?_, ?_, ?_⟩ <;> simp only [natCharsAux, if_pos h10]
      · exact List.cons_ne_nil _ _
      · intro c hc
        rcases List.mem_singleton.mp hc with rfl
        exact digitChar_digit n
      · intro a
        simp [charDigit_digitChar n h10]
    · have hdiv : n / 10 < fuel := by
        have h1 : n / 10 < n := Nat.div_lt_self (by omega) (by omega)
        omega
      obtain ⟨ihne, ihdig, ihval⟩ := ih (n / 10) hdiv
      refine ⟨?_, ?_, ?_⟩ <;> simp only [natCharsAux, if_neg h10]
      · simp
      · intro c hc
        rcases List.mem_append.mp hc with hc | hc
        · exact ihdig c hc
        · rcases List.mem_singleton.mp hc with rfl
          exact digitChar_digit _
      · intro a
        rw [List.foldl_append, ihval a]
        have hmod : n % 10 < 10 := Nat.mod_lt n (by omega)
        simp only [List.foldl_cons, List.foldl_nil, List.length_append,
          List.length_singleton, charDigit_digitChar _ hmod]
        have hdm : 10 * (n / 10) + n % 10 = n := Nat.div_add_mod n 10
        rw [pow_succ]
        ring_nf
        omega

theorem natChars_ne_nil (n : Nat) : natChars n ≠ [] :=
  (natCharsAux_spec (n + 1) n (Nat.lt_succ_self n)).1

theorem natChars_digits (n : Nat) : ∀ c ∈ natChars n, isDigitChar c = true :=
  (natCharsAux_spec (n + 1) n (Nat.lt_succ_self n)).2.1

theorem digitsToNat_natChars (n : Nat) : digitsToNat (natChars n) = some n := by
  obtain ⟨c, cs, hEq⟩ : ∃ c cs, natChars n = c :: cs := by
    cases h : natChars n with
    | nil => exact absurd h (natChars_ne_nil n)
    | cons c cs => exact ⟨c, cs, rfl⟩
  have hdig := natChars_digits n
  rw [hEq] at hdig ⊢
  rw [digitsToNat_of_digits c cs hdig]
  have hval := (natCharsAux_spec (n + 1) n (Nat.lt_succ_self n)).2.2 0
  rw [show natCharsAux (n + 1) n = natChars n from rfl, hEq] at hval
  rw [hval]
  simp

theorem toNatQ_natChars (n : Nat) : toNatQ (natChars n) = some n := by
  obtain ⟨c, cs, hEq⟩ : ∃ c cs, natChars n = c :: cs := by
    cases h : natChars n with
    | nil => exact absurd h (natChars_ne_nil n)
    | cons c cs => exact ⟨c, cs, rfl⟩
  have hdig := natChars_digits n
  rw [hEq] at hdig
  have hc : ¬ c = '+' := digit_ne_plus (hdig c (List.mem_cons_self c cs))
  have hres : digitsToNat (c :: cs) = some n := by
    rw [← hEq]
    exact digitsToNat_natChars n
  rw [hEq]
  unfold toNatQ
  split
  · rename_i heq
    rw [List.cons.injEq] at heq
    exact absurd heq.1 hc
  · exact hres

theorem dropWhile_of_none {p : Char → Bool} (l : List Char)
    (h : ∀ c ∈ l, p c = false) : l.dropWhile p = l := by
  cases l with
  | nil => rfl
  | cons c cs => simp [List.dropWhile, h c (List.mem_cons_self c cs)]

theorem stripChars_of_no_ws (l : List Char)
    (h : ∀ c ∈ l, c.isWhitespace = false) : stripChars l = l := by
  unfold stripChars
  rw [dropWhile_of_none l h, dropWhile_of_none l.reverse
    (fun c hc => h c (List.mem_reverse.mp hc)), List.reverse_reverse]

theorem pyIntQ_natChars (n : Nat) : pyIntQ (natChars n) = some n := by
  unfold pyIntQ
  rw [stripChars_of_no_ws _ (fun c hc => digit_not_ws (natChars_digits n c hc))]
  exact toNatQ_natChars n

theorem contains_iff_mem (x : Char) (l : List Char) : l.contains x = true ↔ x ∈ l := by
  simp [List.contains]

theorem splitOnChar_ne_nil (c : Char) (l : List Char) : splitOnChar c l ≠ [] := by
  cases l with
  | nil => simp [splitOnChar]
  | cons x xs =>
    simp only [splitOnChar]
    split
    · simp
    · split <;> simp

theorem splitOnChar_append {c : Char} (p l : List Char) (hp : c ∉ p)
    {h : List Char} {t : List (List Char)} (hl : splitOnChar c l = h :: t) :
    splitOnChar c (p ++ l) = (p ++ h) :: t := by
  induction p with
  | nil => simpa using hl
  | cons x xs ih =>
    have hx : ¬ x = c := fun hxc => hp (hxc ▸ List.mem_cons_self x xs)
    have ih' := ih (fun hc => hp (List.mem_cons_of_mem x hc))
    simp only [List.cons_append, splitOnChar, if_neg hx]
    rw [show xs.append l = xs ++ l from rfl, ih']

theorem splitOnChar_join (c : Char) (parts : List (List Char)) (hne : parts ≠ [])
    (hmem : ∀ part ∈ parts, c ∉ part) :
    splitOnChar c (joinWithChar c parts) = parts := by
  induction parts with
  | nil => exact absurd rfl hne
  | cons p ps ih =>
    cases ps with
    | nil =>
      show splitOnChar c p = [p]
      have : splitOnChar c (p ++ ([] : List Char)) = (p ++ []) :: [] :=
        splitOnChar_append p [] (hmem p (List.mem_cons_self p [])) rfl
      simpa using this
    | cons q qs =>
      have hjoin : joinWithChar c (p :: q :: qs) = p ++ c :: joinWithChar c (q :: qs) := rfl
      have ihq : splitOnChar c (joinWithChar c (q :: qs)) = q :: qs :=
        ih (List.cons_ne_nil q qs) (fun part hp => hmem part (List.mem_cons_of_mem p hp))
      have hmid : splitOnChar c (c :: joinWithChar c (q :: qs)) =
          [] :: splitOnChar c (joinWithChar c (q :: qs)) := by
        simp [splitOnChar]
      rw [hjoin, splitOnChar_append p _ (hmem p (List.mem_cons_self p _))
        (by rw [hmid, ihq])]
      simp

theorem splitOnceChar_of_not_mem {c : Char} (l : List Char) (h : c ∉ l) :
    splitOnceChar c l = (l, none) := by
  induction l with
  | nil => rfl
  | cons x xs ih =>
    have hx : ¬ x = c := fun hxc => h (hxc ▸ List.mem_cons_self x xs)
    simp [splitOnceChar, hx, ih (fun hc => h (List.mem_cons_of_mem x hc))]

theorem splitOnceChar_append {c : Char} (a b : List Char) (h : c ∉ a) :
    splitOnceChar c (a ++ c :: b) = (a, some b) := by
  induction a with
  | nil => simp [splitOnceChar]
  | cons x xs ih =>
    have hx : ¬ x = c := fun hxc => h (hxc ▸ List.mem_cons_self x xs)
    simp [splitOnceChar, hx, ih (fun hc => h (List.mem_cons_of_mem x hc))]

theorem insertSD_ne_nil {α : Type} [LinearOrder α] (x : α) (l : List α) :
    insertSD x l ≠ [] := by
  cases l with
  | nil => simp [insertSD]
  | cons y ys =>
    simp only [insertSD]
    split
    · simp
    · split <;> simp

theorem mem_insertSD {α : Type} [LinearOrder α] (x y : α) (l : List α) :
    y ∈ insertSD x l ↔ y = x ∨ y ∈ l := by
  induction l with
  | nil => simp [insertSD]
  | cons z zs ih =>
    simp only [insertSD]
    split
    · simp [List.mem_cons]
    · split
      · rename_i hlt heq
        subst heq
        simp [List.mem_cons]
      · simp only [List.mem_cons, ih]
        tauto

theorem pairwise_insertSD {α : Type} [LinearOrder α] (x : α) (l : List α)
    (h : List.Pairwise (· < ·) l) : List.Pairwise (· < ·) (insertSD x l) := by
  induction l with
  | nil => simp [insertSD]
  | cons z zs ih =>
    rcases List.pairwise_cons.mp h with ⟨hz, hzs⟩
    simp only [insertSD]
    split
    · rename_i hlt
      exact List.pairwise_cons.mpr ⟨fun y hy => by
        rcases List.mem_cons.mp hy with rfl | hy
        · exact hlt
        · exact lt_trans hlt (hz y hy), h⟩
    · split
      · exact h
      · rename_i hnlt hne
        have hzx : z < x := lt_of_le_of_ne (not_lt.mp hnlt) (fun he => hne he.symm)
        refine List.pairwise_cons.mpr ⟨fun y hy => ?_, ih hzs⟩
        rcases (mem_insertSD x y zs).mp hy with rfl | hy
        · exact hzx
        · exact hz y hy

theorem sortedDedup_pairwise {α : Type} [LinearOrder α] (l : List α) :
    List.Pairwise (· < ·) (sortedDedup l) := by
  induction l with
  | nil => simp [sortedDedup]
  | cons a l ih => exact pairwise_insertSD a _ ih

theorem mem_sortedDedup {α : Type} [LinearOrder α] (x : α) (l : List α) :
    x ∈ sortedDedup l ↔ x ∈ l := by
  induction l with
  | nil => simp [sortedDedup]
  | cons a l ih =>
    show x ∈ insertSD a (sortedDedup l) ↔ _
    rw [mem_insertSD, ih]
    simp [List.mem_cons]

theorem sortedDedup_ne_nil {α : Type} [LinearOrder α] (l : List α) (h : l ≠ []) :
    sortedDedup l ≠ [] := by
  cases l with
  | nil => exact absurd rfl h
  | cons a l => exact insertSD_ne_nil a (sortedDedup l)

theorem sortedDedup_of_pairwise {α : Type} [LinearOrder α] (l : List α)
    (h : List.Pairwise (· < ·) l) : sortedDedup l = l := by
  induction l with
  | nil => rfl
  | cons a l ih =>
    rcases List.pairwise_cons.mp h with ⟨ha, hl⟩
    show insertSD a (sortedDedup l) = a :: l
    rw [ih hl]
    cases l with
    | nil => rfl
    | cons z zs => simp [insertSD, ha z (List.mem_cons_self z zs)]

theorem sortedDedup_idem {α : Type} [LinearOrder α] (l : List α) :
    sortedDedup (sortedDedup l) = sortedDedup l :=
  sortedDedup_of_pairwise _ (sortedDedup_pairwise l)

theorem parsePart_of_digits (l : List Char) (hne : l ≠ [])
    (hdig : ∀ c ∈ l, isDigitChar c = true) (n : Nat) (hval : toNatQ l = some n) :
    parsePart l = [n] := by
  have hstrip : stripChars l = l :=
    stripChars_of_no_ws l (fun c hc => digit_not_ws (hdig c hc))
  have hemp : l.isEmpty = false := by
    cases l with
    | nil => exact absurd rfl hne
    | cons c cs => rfl
  have hdash : l.contains '-' = false := by
    by_contra hc
    rw [Bool.not_eq_false, contains_iff_mem] at hc
    exact digit_ne_dash (hdig '-' hc) rfl
  unfold parsePart
  simp only [hstrip, hemp, Bool.false_eq_true, if_false, hdash]
  unfold pyIntQ
  rw [hstrip, hval]

theorem parsePart_single (n : Nat) : parsePart (natChars n) = [n] :=
  parsePart_of_digits _ (natChars_ne_nil n) (natChars_digits n) n (toNatQ_natChars n)

theorem parsePart_range (a b : Nat) (hab : a ≤ b) :
    parsePart (natChars a ++ '-' :: natChars b) = rangeList a b := by
  have hnws : ∀ c ∈ natChars a ++ '-' :: natChars b, c.isWhitespace = false := by
    intro c hc
    rcases List.mem_append.mp hc with hc | hc
    · exact digit_not_ws (natChars_digits a c hc)
    · rcases List.mem_cons.mp hc with rfl | hc
      · decide
      · exact digit_not_ws (natChars_digits b c hc)
  have hstrip := stripChars_of_no_ws _ hnws
  have hdash : (natChars a ++ '-' :: natChars b).contains '-' = true := by
    rw [contains_iff_mem]
    exact List.mem_append.mpr (Or.inr (List.mem_cons_self _ _))
  have hsplit : splitOnceChar '-' (natChars a ++ '-' :: natChars b) = (natChars a, some (natChars b)) :=
    splitOnceChar_append _ _ (fun hc => digit_ne_dash (natChars_digits a '-' hc) rfl)
  unfold parsePart
  simp only [hstrip, hdash, if_true]
  have hemp : (natChars a ++ '-' :: natChars b).isEmpty = false := by
    cases h : natChars a with
    | nil => exact absurd h (natChars_ne_nil a)
    | cons c cs => simp [h]
  simp only [hemp, Bool.false_eq_true, if_false, hsplit]
  unfold pyIntQ
  rw [stripChars_of_no_ws _ (fun c hc => digit_not_ws (natChars_digits a c hc)),
    toNatQ_natChars a,
    stripChars_of_no_ws _ (fun c hc => digit_not_ws (natChars_digits b c hc)),
    toNatQ_natChars b]
  simp [hab]

theorem compressRuns_eq_items (rest : List Nat) : ∀ s p,
    compressRuns s p rest = (itemsRuns s p rest).map lineItemChars := by
  induction rest with
  | nil =>
    intro s p
    simp only [compressRuns, itemsRuns, List.map_cons, List.map_nil]
    split <;> simp [lineItemChars]
  | cons x xs ih =>
    intro s p
    simp only [compressRuns, itemsRuns]
    split
    · exact ih s x
    · rw [List.map_cons, ih x x]
      congr 1
      split <;> simp [lineItemChars]

theorem lineItemChars_no_comma (it : LineItem) : ',' ∉ lineItemChars it := by
  intro hc
  cases it with
  | single n => exact digit_ne_comma (natChars_digits n ',' hc) rfl
  | range a b =>
    rcases List.mem_append.mp hc with hc | hc
    · exact digit_ne_comma (natChars_digits a ',' hc) rfl
    · rcases List.mem_cons.mp hc with heq | hc
      · exact absurd heq (by decide)
      · exact digit_ne_comma (natChars_digits b ',' hc) rfl

theorem itemsRuns_ne_nil (rest : List Nat) (s p : Nat) : itemsRuns s p rest ≠ [] := by
  induction rest generalizing s p with
  | nil => simp [itemsRuns]
  | cons x xs ih =>
    simp only [itemsRuns]
    split
    · exact ih s x
    · simp

theorem rangeList_self (s : Nat) : rangeList s s = [s] := by
  simp [rangeList, List.range_succ]

theorem rangeList_snoc (s p : Nat) (h : s ≤ p + 1) :
    rangeList s (p + 1) = rangeList s p ++ [p + 1] := by
  unfold rangeList
  have h1 : p + 1 + 1 - s = (p + 1 - s) + 1 := by omega
  rw [h1, List.range_succ, List.map_append, List.map_singleton]
  congr 2
  omega

theorem itemsRuns_parse_flatten (rest : List Nat) : ∀ s p, s ≤ p →
    List.Pairwise (· < ·) (p :: rest) →
    ((itemsRuns s p rest).map (fun it => parsePart (lineItemChars it))).flatten
      = rangeList s p ++ rest := by
  induction rest with
  | nil =>
    intro s p hsp _
    simp only [itemsRuns, List.map_cons, List.map_nil, List.flatten]
    split
    · rename_i heq
      subst heq
      simp [lineItemChars, parsePart_single, rangeList_self]
    · simp [lineItemChars, parsePart_range s p hsp]
  | cons x xs ih =>
    intro s p hsp hpw
    rcases List.pairwise_cons.mp hpw with ⟨hp, hxs⟩
    have hpx : p < x := hp x (List.mem_cons_self x xs)
    simp only [itemsRuns]
    split
    · rename_i hx1
      subst hx1
      rw [ih s (p + 1) (by omega) hxs, rangeList_snoc s p (by omega)]
      simp
    · rw [List.map_cons, List.flatten_cons, ih x x (le_refl x) hxs]
      have hfirst : parsePart (lineItemChars (if s = p then LineItem.single s else LineItem.range s p))
          = rangeList s p := by
        split
        · rename_i hsp2
          subst hsp2
          simp [lineItemChars, parsePart_single, rangeList_self]
        · simp [lineItemChars, parsePart_range s p hsp]
      rw [hfirst, rangeList_self]
      simp

theorem parse_compress (l : List Nat) : parseLines (compressLines l) = sortedDedup l := by
  unfold compressLines
  cases h : sortedDedup l with
  | nil => decide
  | cons n rest =>
    have hpw := sortedDedup_pairwise l
    rw [h] at hpw
    show parseLines (String.mk (joinWithChar ',' (compressRuns n n rest))) = n :: rest
    unfold parseLines
    have hdata : (String.mk (joinWithChar ',' (compressRuns n n rest))).data
        = joinWithChar ',' (compressRuns n n rest) := rfl
    rw [hdata, compressRuns_eq_items rest n n,
      splitOnChar_join ',' _ (by
        intro habs
        exact itemsRuns_ne_nil rest n n (List.map_eq_nil_iff.mp habs))
        (by
          intro part hpart
          rcases List.mem_map.mp hpart with ⟨it, _, rfl⟩
          exact lineItemChars_no_comma it),
      List.map_map]
    have := itemsRuns_parse_flatten rest n n (le_refl n) hpw
    rw [show ((itemsRuns n n rest).map (parsePart ∘ lineItemChars))
        = (itemsRuns n n rest).map (fun it => parsePart (lineItemChars it)) from rfl, this,
      rangeList_self]
    rfl

theorem compress_sortedDedup (l : List Nat) :
    compressLines (sortedDedup l) = compressLines l := by
  unfold compressLines
  rw [sortedDedup_idem]

/-- C7: for every line-spec string `s`, compressing the parsed lines is
idempotent: `compress(parse(compress(parse(s)))) = compress(parse(s))`,
where `parse` is `_parse_lines` and `compress` is `_compress_lines`. -/
theorem parse_compress_idempotent (s : String) :
    compressLines (parseLines (compressLines (parseLines s))) =
      compressLines (parseLines s) := by
  rw [parse_compress, compress_sortedDedup]

/-- C8: the line-spec parser maps `"1-3,7"` to exactly `[1,2,3,7]`, and
the range compressor maps `[1,2,3,7,9,10]` to exactly `"1-3,7,9-10"`. -/
theorem parse_compress_concrete_values :
    parseLines "1-3,7" = [1, 2, 3, 7] ∧
      compressLines [1, 2, 3, 7, 9, 10] = "1-3,7,9-10" := by
  constructor <;> decide

theorem itemsRuns_low_ge (rest : List Nat) : ∀ s p, s ≤ p →
    List.Pairwise (· < ·) (p :: rest) →
    ∀ it ∈ itemsRuns s p rest, s ≤ lineItemLow it := by
  induction rest with
  | nil =>
    intro s p hsp _ it hit
    simp only [itemsRuns, List.mem_singleton] at hit
    subst hit
    split <;> simp [lineItemLow]
  | cons x xs ih =>
    intro s p hsp hpw it hit
    rcases List.pairwise_cons.mp hpw with ⟨hp, hxs⟩
    have hpx : p < x := hp x (List.mem_cons_self x xs)
    simp only [itemsRuns] at hit
    split at hit
    · exact ih s x (by omega) hxs it hit
    · rcases List.mem_cons.mp hit with rfl | hit
      · split <;> simp [lineItemLow]
      · have := ih x x (le_refl x) hxs it hit
        omega

theorem itemsRuns_ok (rest : List Nat) : ∀ s p, s ≤ p →
    List.Pairwise (· < ·) (p :: rest) →
    ∀ it ∈ itemsRuns s p rest, lineItemOK it := by
  induction rest with
  | nil =>
    intro s p hsp _ it hit
    simp only [itemsRuns, List.mem_singleton] at hit
    subst hit
    split <;> simp [lineItemOK]
    omega
  | cons x xs ih =>
    intro s p hsp hpw it hit
    rcases List.pairwise_cons.mp hpw with ⟨hp, hxs⟩
    have hpx : p < x := hp x (List.mem_cons_self x xs)
    simp only [itemsRuns] at hit
    split at hit
    · exact ih s x (by omega) hxs it hit
    · rcases List.mem_cons.mp hit with rfl | hit
      · split
        · simp [lineItemOK]
        · simp [lineItemOK]
          omega
      · exact ih x x (le_refl x) hxs it hit

theorem itemsRuns_pairwise (rest : List Nat) : ∀ s p, s ≤ p →
    List.Pairwise (· < ·) (p :: rest) →
    List.Pairwise (fun i j => lineItemHigh i < lineItemLow j) (itemsRuns s p rest) := by
  induction rest with
  | nil =>
    intro s p _ _
    simp only [itemsRuns]
    split <;> simp
  | cons x xs ih =>
    intro s p hsp hpw
    rcases List.pairwise_cons.mp hpw with ⟨hp, hxs⟩
    have hpx : p < x := hp x (List.mem_cons_self x xs)
    simp only [itemsRuns]
    split
    · exact ih s x (by omega) hxs
    · refine List.pairwise_cons.mpr ⟨fun it hit => ?_, ih x x (le_refl x) hxs⟩
      have hlow := itemsRuns_low_ge xs x x (le_refl x) hxs it hit
      have hhigh : lineItemHigh (if s = p then LineItem.single s else LineItem.range s p) = p := by
        split <;> simp [lineItemHigh]
        omega
      omega

theorem joinWithChar_cons_ne_nil (c : Char) (p : List Char) (ps : List (List Char))
    (hp : p ≠ []) : joinWithChar c (p :: ps) ≠ [] := by
  cases ps with
  | nil => exact hp
  | cons q qs => simp [joinWithChar, hp]

theorem lineItemChars_ne_nil (it : LineItem) : lineItemChars it ≠ [] := by
  cases it with
  | single m => exact natChars_ne_nil m
  | range a b =>
    intro hc
    simp only [lineItemChars, List.append_eq_nil] at hc
    exact natChars_ne_nil a hc.1

theorem compressLines_valid (l : List Nat) (h : l ≠ []) :
    compressLines l ≠ "" ∧ ValidLineSpec (compressLines l) := by
  have hne := sortedDedup_ne_nil l h
  have hpw := sortedDedup_pairwise l
  cases hsd : sortedDedup l with
  | nil => exact absurd hsd hne
  | cons n rest =>
    rw [hsd] at hpw
    have hcl : compressLines l = String.mk (joinWithChar ',' (compressRuns n n rest)) := by
      unfold compressLines
      rw [hsd]
    have hitems : compressRuns n n rest = (itemsRuns n n rest).map lineItemChars :=
      compressRuns_eq_items rest n n
    constructor
    · intro habs
      rw [hcl] at habs
      have hdata : joinWithChar ',' (compressRuns n n rest) = [] :=
        congrArg String.data habs
      rw [hitems] at hdata
      cases hcase : (itemsRuns n n rest).map lineItemChars with
      | nil => exact itemsRuns_ne_nil rest n n (List.map_eq_nil_iff.mp hcase)
      | cons p ps =>
        rw [hcase] at hdata
        have hpne : p ≠ [] := by
          have hpm : p ∈ (itemsRuns n n rest).map lineItemChars := by
            rw [hcase]
            exact List.mem_cons_self p ps
          rcases List.mem_map.mp hpm with ⟨it, _, rfl⟩
          exact lineItemChars_ne_nil it
        exact joinWithChar_cons_ne_nil ',' p ps hpne hdata
    · refine ⟨itemsRuns n n rest, itemsRuns_ne_nil rest n n,
        itemsRuns_ok rest n n (le_refl n) hpw,
        itemsRuns_pairwise rest n n (le_refl n) hpw, ?_⟩
      rw [hcl, hitems]

theorem ruleMake_single_valid (m : RuleMeta) (msg : String) (n : Nat) :
    (ruleMake m (.int n) msg).impacted_lines ≠ "" ∧
      ValidLineSpec (ruleMake m (.int n) msg).impacted_lines := by
  constructor
  · intro habs
    exact natChars_ne_nil n (congrArg String.data habs)
  · exact ⟨[LineItem.single n], by simp, by simp [lineItemOK], by simp,
      by simp [ruleMake, natStr, lineItemChars, joinWithChar]⟩

theorem ruleMake_pair_valid (m : RuleMeta) (msg : String) (a b : Nat) (hab : a ≤ b) :
    (ruleMake m (.pair a b) msg).impacted_lines ≠ "" ∧
      ValidLineSpec (ruleMake m (.pair a b) msg).impacted_lines := by
  constructor
  · intro habs
    have hd : natChars a ++ '-' :: natChars b = [] := congrArg String.data habs
    simp only [List.append_eq_nil] at hd
    exact List.cons_ne_nil _ _ hd.2
  · exact ⟨[LineItem.range a b], by simp, by simp [lineItemOK]; exact hab, by simp,
      by simp [ruleMake, lineItemChars, joinWithChar]⟩

theorem ruleMake_coll_valid (m : RuleMeta) (msg : String) (l : List Nat) (hl : l ≠ []) :
    (ruleMake m (.coll l) msg).impacted_lines ≠ "" ∧
      ValidLineSpec (ruleMake m (.coll l) msg).impacted_lines := by
  have hne := sortedDedup_ne_nil l hl
  have hpw := sortedDedup_pairwise l
  have hdata : (ruleMake m (.coll l) msg).impacted_lines
      = String.mk (joinWithChar ',' ((sortedDedup l).map natChars)) := rfl
  constructor
  · intro habs
    have hj := congrArg String.data habs
    rw [hdata] at hj
    cases hsd : sortedDedup l with
    | nil => exact hne hsd
    | cons n rest =>
      rw [hsd] at hj
      exact joinWithChar_cons_ne_nil ',' _ _ (natChars_ne_nil n) hj
  · refine ⟨(sortedDedup l).map .single, ?_, ?_, ?_, ?_⟩
    · intro habs
      exact hne (List.map_eq_nil_iff.mp habs)
    · intro it hit
      rcases List.mem_map.mp hit with ⟨x, _, rfl⟩
      simp [lineItemOK]
    · refine List.Pairwise.map _ ?_ hpw
      intro a b hab
      simpa [lineItemHigh, lineItemLow] using hab
    · rw [hdata, List.map_map]
      rfl

theorem assocUpdate_forall {P : MergeGroup → Prop} (k : MergeKey)
    (f : MergeGroup → MergeGroup) (acc : List (MergeKey × MergeGroup))
    (hacc : ∀ kg ∈ acc, P kg.2) (hf : ∀ g, P g → P (f g)) :
    ∀ kg ∈ assocUpdate k f acc, P kg.2 := by
  induction acc with
  | nil => intro kg hkg; simp [assocUpdate] at hkg
  | cons hd tl ih =>
    intro kg hkg
    obtain ⟨k', g⟩ := hd
    simp only [assocUpdate] at hkg
    split at hkg
    · rcases List.mem_cons.mp hkg with rfl | hkg
      · exact hf g (hacc (k', g) (List.mem_cons_self _ _))
      · exact hacc kg (List.mem_cons_of_mem _ hkg)
    · rcases List.mem_cons.mp hkg with rfl | hkg
      · exact hacc (k', g) (List.mem_cons_self _ _)
      · exact ih (fun kg0 h0 => hacc kg0 (List.mem_cons_of_mem _ h0)) kg hkg

theorem merge_groups_lines_ne_nil (items : List (String × Issue))
    (hitems : ∀ fi ∈ items, parseLines fi.2.impacted_lines ≠ []) :
    ∀ acc : List (MergeKey × MergeGroup), (∀ kg ∈ acc, kg.2.impacted_lines ≠ []) →
    ∀ kg ∈ items.foldl mergeStep acc, kg.2.impacted_lines ≠ [] := by
  induction items with
  | nil => intro acc hacc kg hkg; exact hacc kg hkg
  | cons fi rest ih =>
    intro acc hacc kg hkg
    rw [List.foldl_cons] at hkg
    refine ih (fun fj hfj => hitems fj (List.mem_cons_of_mem fi hfj)) _ ?_ kg hkg
    intro kg0 hkg0
    unfold mergeStep at hkg0
    split at hkg0
    · rcases List.mem_append.mp hkg0 with h0 | h0
      · exact hacc kg0 h0
      · rcases List.mem_singleton.mp h0 with rfl
        exact hitems fi (List.mem_cons_self fi rest)
    · refine assocUpdate_forall (P := fun g => g.impacted_lines ≠ [])
        _ _ acc hacc ?_ kg0 hkg0
      intro g hg
      simp only [updateGroup]
      intro habs
      exact hg (List.append_eq_nil.mp habs).1

/-- C6 counterexample: `Rule.make` applied to an empty collection of
lines (an allowed `line_spec` shape under the claim) yields the empty
`impacted_lines` string, which is neither non-empty nor one of the
defined line-spec forms. -/
theorem make_empty_collection_breaks_invariant :
    ¬ ((ruleMake ⟨"General", "LOW", "Informational"⟩ (MakeArg.coll []) "m").impacted_lines ≠ ""
       ∧ ValidLineSpec
          (ruleMake ⟨"General", "LOW", "Informational"⟩ (MakeArg.coll []) "m").impacted_lines) := by
  intro hcl
  exact hcl.1 (by decide)

/-- C6 (amended): every issue built by `Rule.make` from a single line,
from a non-reversed `(start, end)` pair, or from a non-empty collection
of lines has a non-empty `impacted_lines` string in the defined
line-spec forms, and `merge_same_issue_across_lines` re-establishes this
invariant on every output whose key group parses to at least one line
number — in particular whenever all its inputs satisfy the invariant.
(`make` on an empty collection yields `""`, and the driver's truncated
`",+k more"` form lies outside the three base forms.) -/
theorem make_and_merge_impacted_lines_valid :
    (∀ (m : RuleMeta) (msg : String) (n : Nat),
      (ruleMake m (.int n) msg).impacted_lines ≠ "" ∧
        ValidLineSpec (ruleMake m (.int n) msg).impacted_lines) ∧
    (∀ (m : RuleMeta) (msg : String) (a b : Nat), a ≤ b →
      (ruleMake m (.pair a b) msg).impacted_lines ≠ "" ∧
        ValidLineSpec (ruleMake m (.pair a b) msg).impacted_lines) ∧
    (∀ (m : RuleMeta) (msg : String) (l : List Nat), l ≠ [] →
      (ruleMake m (.coll l) msg).impacted_lines ≠ "" ∧
        ValidLineSpec (ruleMake m (.coll l) msg).impacted_lines) ∧
    (∀ items : List (String × Issue),
      (∀ fi ∈ items, parseLines fi.2.impacted_lines ≠ []) →
      ∀ q ∈ mergeSameIssueAcrossLines items,
        q.2.impacted_lines ≠ "" ∧ ValidLineSpec q.2.impacted_lines) := by
  refine ⟨ruleMake_single_valid, ruleMake_pair_valid, ruleMake_coll_valid, ?_⟩
  intro items hitems q hq
  rcases List.mem_map.mp hq with ⟨kg, hkg, rfl⟩
  have hne : kg.2.impacted_lines ≠ [] :=
    merge_groups_lines_ne_nil items hitems [] (by simp) kg hkg
  exact compressLines_valid kg.2.impacted_lines hne

/-- Helper: applying C6's amended statement at concrete inputs. -/
theorem make_and_merge_impacted_lines_valid_witness :
    ((2 : Nat) ≤ 5 ∧
      ((ruleMake ⟨"C", "LOW", "I"⟩ (MakeArg.pair 2 5) "m").impacted_lines ≠ "" ∧
        ValidLineSpec (ruleMake ⟨"C", "LOW", "I"⟩ (MakeArg.pair 2 5) "m").impacted_lines)) ∧
    ((∀ fi ∈ [("a.py", (⟨"Cat", "LOW", "1", "Imp", "d"⟩ : Issue)),
              ("a.py", (⟨"Cat", "HIGH", "3", "Imp", "d"⟩ : Issue))],
        parseLines fi.2.impacted_lines ≠ []) ∧
      (∀ q ∈ mergeSameIssueAcrossLines
          [("a.py", (⟨"Cat", "LOW", "1", "Imp", "d"⟩ : Issue)),
           ("a.py", (⟨"Cat", "HIGH", "3", "Imp", "d"⟩ : Issue))],
        q.2.impacted_lines ≠ "" ∧ ValidLineSpec q.2.impacted_lines)) :=
  ⟨⟨by decide, make_and_merge_impacted_lines_valid.2.1 ⟨"C", "LOW", "I"⟩ "m" 2 5 (by decide)⟩,
   ⟨by decide, make_and_merge_impacted_lines_valid.2.2.2 _ (by decide)⟩⟩

/-! ### The closed form of `merge_same_issue_across_lines` -/

theorem assocFind_eq_none_iff (k : MergeKey) (acc : List (MergeKey × MergeGroup)) :
    assocFind k acc = none ↔ k ∉ acc.map Prod.fst := by
  induction acc with
  | nil => simp [assocFind]
  | cons hd tl ih =>
    obtain ⟨k', g⟩ := hd
    simp only [assocFind, List.map_cons, List.mem_cons]
    split
    · rename_i heq
      subst heq
      simp
    · rename_i hne
      simp only [ih]
      constructor
      · intro h hk
        rcases hk with rfl | hk
        · exact hne rfl
        · exact h hk
      · intro h hk
        exact h (Or.inr hk)

theorem assocUpdate_keys (k : MergeKey) (f : MergeGroup → MergeGroup)
    (acc : List (MergeKey × MergeGroup)) :
    (assocUpdate k f acc).map Prod.fst = acc.map Prod.fst := by
  induction acc with
  | nil => rfl
  | cons hd tl ih =>
    obtain ⟨k', g⟩ := hd
    simp only [assocUpdate]
    split <;> simp [ih]

theorem mem_dedupFirstAux {α : Type} [DecidableEq α] (l : List α) :
    ∀ (seen : List α) (x : α), x ∈ dedupFirstAux seen l ↔ x ∈ l ∧ x ∉ seen := by
  induction l with
  | nil => intro seen x; simp [dedupFirstAux]
  | cons y ys ih =>
    intro seen x
    simp only [dedupFirstAux]
    split
    · rename_i hy
      rw [ih seen x]
      simp only [List.mem_cons]
      constructor
      · exact fun h => ⟨Or.inr h.1, h.2⟩
      · rintro ⟨rfl | hx, hns⟩
        · exact absurd hy hns
        · exact ⟨hx, hns⟩
    · rename_i hy
      constructor
      · intro h
        rcases List.mem_cons.mp h with rfl | h
        · exact ⟨List.mem_cons_self _ _, hy⟩
        · obtain ⟨hys, hns⟩ := (ih (seen ++ [y]) x).mp h
          exact ⟨List.mem_cons_of_mem y hys,
            fun hseen => hns (List.mem_append.mpr (Or.inl hseen))⟩
      · rintro ⟨hmem, hns⟩
        rcases List.mem_cons.mp hmem with rfl | hys
        · exact List.mem_cons_self _ _
        · by_cases hxy : x = y
          · exact hxy ▸ List.mem_cons_self _ _
          · refine List.mem_cons_of_mem y ((ih (seen ++ [y]) x).mpr ⟨hys, fun hs => ?_⟩)
            rcases List.mem_append.mp hs with hs | hs
            · exact hns hs
            · exact hxy (List.mem_singleton.mp hs)

theorem dedupFirstAux_nodup {α : Type} [DecidableEq α] (l : List α) :
    ∀ seen : List α, (dedupFirstAux seen l).Nodup := by
  induction l with
  | nil => intro seen; simp [dedupFirstAux]
  | cons y ys ih =>
    intro seen
    simp only [dedupFirstAux]
    split
    · exact ih seen
    · refine List.nodup_cons.mpr ⟨?_, ih (seen ++ [y])⟩
      intro hy
      exact ((mem_dedupFirstAux ys (seen ++ [y]) y).mp hy).2
        (List.mem_append.mpr (Or.inr (List.mem_singleton.mpr rfl)))

theorem filterKey_cons (k : MergeKey) (fi : String × Issue) (rest : List (String × Issue)) :
    filterKey k (fi :: rest) =
      if mergeKey fi = k then fi :: filterKey k rest else filterKey k rest := by
  simp only [filterKey, List.filter_cons]
  split <;> rename_i h <;> simp_all

theorem extendGroup_cons (g : MergeGroup) (fi : String × Issue)
    (l : List (String × Issue)) :
    extendGroup g (fi :: l) = extendGroup (updateGroup g fi.2) l := rfl

theorem groupFor_cons_self (fi : String × Issue) (rest : List (String × Issue))
    (k : MergeKey) (h : mergeKey fi = k) :
    groupFor (fi :: rest) k = extendGroup (initGroup fi) (filterKey k rest) := by
  unfold groupFor
  rw [filterKey_cons, if_pos h]

theorem groupFor_cons_ne (fi : String × Issue) (rest : List (String × Issue))
    (k : MergeKey) (h : ¬ mergeKey fi = k) :
    groupFor (fi :: rest) k = groupFor rest k := by
  unfold groupFor
  rw [filterKey_cons, if_neg h]

theorem map_filter_update (fi : String × Issue) (rest : List (String × Issue)) :
    ∀ acc : List (MergeKey × MergeGroup), (acc.map Prod.fst).Nodup →
    acc.map (fun kg => (kg.1, extendGroup kg.2 (filterKey kg.1 (fi :: rest)))) =
      (assocUpdate (mergeKey fi) (fun g => updateGroup g fi.2) acc).map
        (fun kg => (kg.1, extendGroup kg.2 (filterKey kg.1 rest))) := by
  intro acc hnd
  induction acc with
  | nil => rfl
  | cons hd tl ih =>
    obtain ⟨k', g⟩ := hd
    rw [List.map_cons] at hnd
    rcases List.nodup_cons.mp hnd with ⟨hk', htl⟩
    simp only [assocUpdate, List.map_cons]
    split
    · rename_i heq
      subst heq
      rw [List.map_cons]
      congr 1
      · rw [filterKey_cons, if_pos rfl, extendGroup_cons]
      · refine List.map_congr_left ?_
        intro kg hkg
        have hne : mergeKey fi ≠ kg.1 := by
          intro habs
          exact hk' (habs ▸ List.mem_map.mpr ⟨kg, hkg, rfl⟩)
        rw [filterKey_cons, if_neg hne]
    · rename_i hne
      rw [List.map_cons]
      congr 1
      · rw [filterKey_cons, if_neg hne]
      · exact ih htl

theorem merge_fold_spec : ∀ (items : List (String × Issue))
    (acc : List (MergeKey × MergeGroup)), (acc.map Prod.fst).Nodup →
    items.foldl mergeStep acc =
      acc.map (fun kg => (kg.1, extendGroup kg.2 (filterKey kg.1 items))) ++
      (dedupFirstAux (acc.map Prod.fst) (items.map mergeKey)).map
        (fun k => (k, groupFor items k)) := by
  intro items
  induction items with
  | nil =>
    intro acc _
    simp only [List.foldl_nil, List.map_nil, dedupFirstAux, List.append_nil]
    have hid : acc.map (fun kg => (kg.1, extendGroup kg.2 (filterKey kg.1 []))) = acc.map id := by
      refine List.map_congr_left ?_
      intro kg _
      exact Prod.mk.eta
    rw [hid, List.map_id]
  | cons fi rest ih =>
    intro acc hnd
    rw [List.foldl_cons]
    by_cases hmem : mergeKey fi ∈ acc.map Prod.fst
    · have hfind : assocFind (mergeKey fi) acc ≠ none :=
        fun hf => ((assocFind_eq_none_iff _ _).mp hf) hmem
      have hstep : mergeStep acc fi =
          assocUpdate (mergeKey fi) (fun g => updateGroup g fi.2) acc := by
        unfold mergeStep
        cases hf : assocFind (mergeKey fi) acc with
        | none => exact absurd hf hfind
        | some g0 => rfl
      rw [hstep, ih _ (by rw [assocUpdate_keys]; exact hnd)]
      rw [assocUpdate_keys]
      congr 1
      · exact (map_filter_update fi rest acc hnd).symm
      · rw [show (fi :: rest).map mergeKey = mergeKey fi :: rest.map mergeKey from rfl]
        simp only [dedupFirstAux, hmem, if_pos]
        refine List.map_congr_left ?_
        intro k hk
        have hknot : k ∉ acc.map Prod.fst := ((mem_dedupFirstAux _ _ k).mp hk).2
        have hkne : ¬ mergeKey fi = k := fun habs => hknot (habs ▸ hmem)
        rw [groupFor_cons_ne fi rest k hkne]
    · have hstep : mergeStep acc fi = acc ++ [(mergeKey fi, initGroup fi)] := by
        unfold mergeStep
        rw [(assocFind_eq_none_iff _ _).mpr hmem]
      have hnd' : ((acc ++ [(mergeKey fi, initGroup fi)]).map Prod.fst).Nodup := by
        rw [List.map_append]
        simp only [List.map_cons, List.map_nil]
        refine List.Nodup.append hnd (List.nodup_singleton _) ?_
        intro a ha hb
        rcases List.mem_singleton.mp hb with rfl
        exact hmem ha
      rw [hstep, ih _ hnd', List.map_append]
      rw [show ((acc ++ [(mergeKey fi, initGroup fi)]).map Prod.fst)
          = acc.map Prod.fst ++ [mergeKey fi] from by rw [List.map_append]; rfl]
      rw [show (fi :: rest).map mergeKey = mergeKey fi :: rest.map mergeKey from rfl]
      have hdfa : dedupFirstAux (acc.map Prod.fst) (mergeKey fi :: rest.map mergeKey)
          = mergeKey fi :: dedupFirstAux (acc.map Prod.fst ++ [mergeKey fi]) (rest.map mergeKey) := by
        simp [dedupFirstAux, hmem]
      rw [hdfa, List.map_cons, List.append_assoc]
      congr 1
      · refine List.map_congr_left ?_
        intro kg hkg
        have hne : ¬ mergeKey fi = kg.1 := by
          intro habs
          exact hmem (habs ▸ List.mem_map.mpr ⟨kg, hkg, rfl⟩)
        rw [filterKey_cons, if_neg hne]
      · simp only [List.map_cons, List.map_nil, List.nil_append]
        rw [List.singleton_append]
        congr 1
        · show (mergeKey fi, extendGroup (initGroup fi) (filterKey (mergeKey fi) rest))
            = (mergeKey fi, groupFor (fi :: rest) (mergeKey fi))
          rw [groupFor_cons_self fi rest (mergeKey fi) rfl]
        · refine (List.map_congr_left ?_).symm
          intro k hk
          have hknot : k ∉ acc.map Prod.fst ++ [mergeKey fi] :=
            ((mem_dedupFirstAux _ _ k).mp hk).2
          have hkne : ¬ mergeKey fi = k := by
            intro habs
            exact hknot (List.mem_append.mpr (Or.inr (List.mem_singleton.mpr habs.symm)))
          rw [groupFor_cons_ne fi rest k hkne]

theorem mergeSame_eq_spec (items : List (String × Issue)) :
    mergeSameIssueAcrossLines items = mergeSpecEntries items := by
  unfold mergeSameIssueAcrossLines mergeSpecEntries dedupFirst
  rw [merge_fold_spec items [] (by simp)]
  simp [List.map_map, Function.comp]

theorem extendGroup_lines (l : List (String × Issue)) : ∀ g : MergeGroup,
    (extendGroup g l).impacted_lines
      = g.impacted_lines ++ l.flatMap (fun fi => parseLines fi.2.impacted_lines) := by
  induction l with
  | nil => intro g; simp [extendGroup]
  | cons fi rest ih =>
    intro g
    rw [extendGroup_cons, ih]
    simp [updateGroup]

theorem extendGroup_priority (l : List (String × Issue)) : ∀ g : MergeGroup,
    (extendGroup g l).priority
      = (l.map (fun fi => fi.2.priority)).foldl severityPickMax g.priority := by
  induction l with
  | nil => intro g; simp [extendGroup]
  | cons fi rest ih =>
    intro g
    rw [extendGroup_cons, ih]
    rfl

theorem fold_pickMax_mem (ps : List String) : ∀ p0 : String,
    ps.foldl severityPickMax p0 ∈ p0 :: ps := by
  induction ps with
  | nil => intro p0; simp
  | cons q qs ih =>
    intro p0
    rw [List.foldl_cons]
    have h := ih (severityPickMax p0 q)
    rcases List.mem_cons.mp h with heq | hmem
    · rw [heq]
      unfold severityPickMax
      split
      · exact List.mem_cons_self _ _
      · exact List.mem_cons_of_mem _ (List.mem_cons_self _ _)
    · exact List.mem_cons_of_mem _ (List.mem_cons_of_mem _ hmem)

theorem rank_pickMax_left (a b : String) : rankD 0 a ≤ rankD 0 (severityPickMax a b) := by
  unfold severityPickMax
  split
  · exact le_refl _
  · omega

theorem rank_pickMax_right (a b : String) : rankD 0 b ≤ rankD 0 (severityPickMax a b) := by
  unfold severityPickMax
  split
  · assumption
  · exact le_refl _

theorem fold_pickMax_ge (ps : List String) : ∀ p0 q, q ∈ p0 :: ps →
    rankD 0 q ≤ rankD 0 (ps.foldl severityPickMax p0) := by
  induction ps with
  | nil =>
    intro p0 q hq
    rcases List.mem_cons.mp hq with rfl | hq
    · exact le_refl _
    · exact absurd hq (List.not_mem_nil q)
  | cons r rs ih =>
    intro p0 q hq
    rw [List.foldl_cons]
    have hhead : rankD 0 (severityPickMax p0 r)
        ≤ rankD 0 (rs.foldl severityPickMax (severityPickMax p0 r)) :=
      ih (severityPickMax p0 r) _ (List.mem_cons_self _ _)
    rcases List.mem_cons.mp hq with rfl | hq
    · exact le_trans (rank_pickMax_left q r) hhead
    · rcases List.mem_cons.mp hq with rfl | hq
      · exact le_trans (rank_pickMax_right p0 q) hhead
      · exact ih (severityPickMax p0 r) q (List.mem_cons_of_mem _ hq)

theorem mem_filterKey (k : MergeKey) (items : List (String × Issue)) (fi : String × Issue) :
    fi ∈ filterKey k items ↔ fi ∈ items ∧ mergeKey fi = k := by
  simp [filterKey, List.mem_filter]

theorem filterKey_ne_nil_of_mem (k : MergeKey) (items : List (String × Issue))
    (h : k ∈ items.map mergeKey) : filterKey k items ≠ [] := by
  rcases List.mem_map.mp h with ⟨fi, hfi, rfl⟩
  intro habs
  have : fi ∈ filterKey (mergeKey fi) items := (mem_filterKey _ _ _).mpr ⟨hfi, rfl⟩
  rw [habs] at this
  exact List.not_mem_nil fi this

theorem groupFor_lines (items : List (String × Issue)) (k : MergeKey)
    (h : filterKey k items ≠ []) :
    (groupFor items k).impacted_lines
      = (filterKey k items).flatMap (fun fi => parseLines fi.2.impacted_lines) := by
  unfold groupFor
  cases hf : filterKey k items with
  | nil => exact absurd hf h
  | cons fi rest =>
    rw [extendGroup_lines]
    simp [initGroup]

theorem groupFor_priority_max (items : List (String × Issue)) (k : MergeKey)
    (h : filterKey k items ≠ []) :
    (groupFor items k).priority ∈ groupPriorities items k ∧
      ∀ p ∈ groupPriorities items k,
        rankD 0 p ≤ rankD 0 (groupFor items k).priority := by
  unfold groupFor groupPriorities
  cases hf : filterKey k items with
  | nil => exact absurd hf h
  | cons fi rest =>
    rw [extendGroup_priority]
    have hinit : (initGroup fi).priority = fi.2.priority := rfl
    rw [hinit, List.map_cons]
    exact ⟨fold_pickMax_mem _ _, fun p hp => fold_pickMax_ge _ _ p hp⟩

theorem rank_inj_on_named (p q : String)
    (hp : p = "HIGH" ∨ p = "MEDIUM" ∨ p = "LOW")
    (hq : q = "HIGH" ∨ q = "MEDIUM" ∨ q = "LOW")
    (h : rankD 0 p = rankD 0 q) : p = q := by
  rcases hp with rfl | rfl | rfl <;> rcases hq with rfl | rfl | rfl <;>
    first
      | rfl
      | exact absurd h (by decide)

/-- C10: the merged output lists exactly one entry per distinct merge
key, in the order of the first input item carrying that key
(`dedupFirst` keeps the first occurrence of each key of the input). -/
theorem merge_first_occurrence_key_order (items : List (String × Issue)) :
    mergeSameIssueAcrossLines items
        = (dedupFirst (items.map mergeKey)).map (fun k => groupOut (groupFor items k)) ∧
      (dedupFirst (items.map mergeKey)).Nodup ∧
      ∀ k, k ∈ dedupFirst (items.map mergeKey) ↔ k ∈ items.map mergeKey := by
  refine ⟨mergeSame_eq_spec items, dedupFirstAux_nodup _ [], fun k => ?_⟩
  unfold dedupFirst
  rw [mem_dedupFirstAux]
  simp

/-- C3: the merge produces exactly one output issue per merge key
`(filename, category, normalized impact, normalized description)`; its
`impacted_lines` is the sorted range-compressed union of all line
numbers parsed from the group, and its priority is the maximum priority
of the group under HIGH > MEDIUM > LOW; in particular merging lines
`"1"` at LOW and `"3"` at HIGH on one key yields one issue with
priority HIGH and lines `"1,3"`. -/
theorem merge_priority_max_and_line_union (items : List (String × Issue))
    (hpr : ∀ fi ∈ items,
      fi.2.priority = "HIGH" ∨ fi.2.priority = "MEDIUM" ∨ fi.2.priority = "LOW") :
    (mergeSameIssueAcrossLines items
        = (dedupFirst (items.map mergeKey)).map (fun k => groupOut (groupFor items k))) ∧
    (∀ k ∈ dedupFirst (items.map mergeKey),
      (groupOut (groupFor items k)).2.impacted_lines
          = compressLines
              ((filterKey k items).flatMap (fun fi => parseLines fi.2.impacted_lines)) ∧
      (groupOut (groupFor items k)).2.priority ∈ groupPriorities items k ∧
      ∀ p ∈ groupPriorities items k,
        rankD 0 p ≤ rankD 0 (groupOut (groupFor items k)).2.priority ∧
        (rankD 0 p = rankD 0 (groupOut (groupFor items k)).2.priority →
          p = (groupOut (groupFor items k)).2.priority)) ∧
    mergeSameIssueAcrossLines
        [("a.py", (⟨"Cat", "LOW", "1", "Impact", "same"⟩ : Issue)),
         ("a.py", (⟨"Cat", "HIGH", "3", "Impact", "same"⟩ : Issue))]
      = [("a.py", (⟨"Cat", "HIGH", "1,3", "Impact", "same"⟩ : Issue))] := by
  refine ⟨mergeSame_eq_spec items, ?_, by decide⟩
  intro k hk
  have hkmem : k ∈ items.map mergeKey := by
    have := (mem_dedupFirstAux (items.map mergeKey) [] k).mp hk
    exact this.1
  have hfne : filterKey k items ≠ [] := filterKey_ne_nil_of_mem k items hkmem
  have hout_lines : (groupOut (groupFor items k)).2.impacted_lines
      = compressLines (groupFor items k).impacted_lines := rfl
  have hout_pr : (groupOut (groupFor items k)).2.priority = (groupFor items k).priority := rfl
  obtain ⟨hmem, hmax⟩ := groupFor_priority_max items k hfne
  have hout3 : (groupOut (groupFor items k)).2.priority = "HIGH" ∨
      (groupOut (groupFor items k)).2.priority = "MEDIUM" ∨
      (groupOut (groupFor items k)).2.priority = "LOW" := by
    rw [hout_pr]
    rcases List.mem_map.mp hmem with ⟨fi, hfi, heq⟩
    have hin : fi ∈ items := ((mem_filterKey k items fi).mp hfi).1
    rw [← heq]
    exact hpr fi hin
  refine ⟨by rw [hout_lines, groupFor_lines items k hfne], by rw [hout_pr]; exact hmem, ?_⟩
  intro p hp
  refine ⟨by rw [hout_pr]; exact hmax p hp, fun heq => ?_⟩
  have hp3 : p = "HIGH" ∨ p = "MEDIUM" ∨ p = "LOW" := by
    rcases List.mem_map.mp hp with ⟨fi, hfi, hpeq⟩
    have hin : fi ∈ items := ((mem_filterKey k items fi).mp hfi).1
    rw [← hpeq]
    exact hpr fi hin
  exact rank_inj_on_named p _ hp3 hout3 heq

/-- Witness: C3 applied to a concrete two-issue input. -/
theorem merge_priority_max_and_line_union_witness :
    (∀ fi ∈ [("a.py", (⟨"Cat", "LOW", "1", "Impact", "same"⟩ : Issue)),
             ("a.py", (⟨"Cat", "HIGH", "3", "Impact", "same"⟩ : Issue))],
      fi.2.priority = "HIGH" ∨ fi.2.priority = "MEDIUM" ∨ fi.2.priority = "LOW") ∧
    ((mergeSameIssueAcrossLines
        [("a.py", (⟨"Cat", "LOW", "1", "Impact", "same"⟩ : Issue)),
         ("a.py", (⟨"Cat", "HIGH", "3", "Impact", "same"⟩ : Issue))]
        = (dedupFirst ([("a.py", (⟨"Cat", "LOW", "1", "Impact", "same"⟩ : Issue)),
            ("a.py", (⟨"Cat", "HIGH", "3", "Impact", "same"⟩ : Issue))].map mergeKey)).map
            (fun k => groupOut (groupFor
              [("a.py", (⟨"Cat", "LOW", "1", "Impact", "same"⟩ : Issue)),
               ("a.py", (⟨"Cat", "HIGH", "3", "Impact", "same"⟩ : Issue))] k))) ∧
      (∀ k ∈ dedupFirst ([("a.py", (⟨"Cat", "LOW", "1", "Impact", "same"⟩ : Issue)),
            ("a.py", (⟨"Cat", "HIGH", "3", "Impact", "same"⟩ : Issue))].map mergeKey),
        (groupOut (groupFor [("a.py", (⟨"Cat", "LOW", "1", "Impact", "same"⟩ : Issue)),
            ("a.py", (⟨"Cat", "HIGH", "3", "Impact", "same"⟩ : Issue))] k)).2.impacted_lines
            = compressLines
                ((filterKey k [("a.py", (⟨"Cat", "LOW", "1", "Impact", "same"⟩ : Issue)),
                  ("a.py", (⟨"Cat", "HIGH", "3", "Impact", "same"⟩ : Issue))]).flatMap
                  (fun fi => parseLines fi.2.impacted_lines)) ∧
        (groupOut (groupFor [("a.py", (⟨"Cat", "LOW", "1", "Impact", "same"⟩ : Issue)),
            ("a.py", (⟨"Cat", "HIGH", "3", "Impact", "same"⟩ : Issue))] k)).2.priority
            ∈ groupPriorities [("a.py", (⟨"Cat", "LOW", "1", "Impact", "same"⟩ : Issue)),
                ("a.py", (⟨"Cat", "HIGH", "3", "Impact", "same"⟩ : Issue))] k ∧
        ∀ p ∈ groupPriorities [("a.py", (⟨"Cat", "LOW", "1", "Impact", "same"⟩ : Issue)),
            ("a.py", (⟨"Cat", "HIGH", "3", "Impact", "same"⟩ : Issue))] k,
          rankD 0 p ≤ rankD 0 (groupOut (groupFor
              [("a.py", (⟨"Cat", "LOW", "1", "Impact", "same"⟩ : Issue)),
               ("a.py", (⟨"Cat", "HIGH", "3", "Impact", "same"⟩ : Issue))] k)).2.priority ∧
          (rankD 0 p = rankD 0 (groupOut (groupFor
              [("a.py", (⟨"Cat", "LOW", "1", "Impact", "same"⟩ : Issue)),
               ("a.py", (⟨"Cat", "HIGH", "3", "Impact", "same"⟩ : Issue))] k)).2.priority →
            p = (groupOut (groupFor
              [("a.py", (⟨"Cat", "LOW", "1", "Impact", "same"⟩ : Issue)),
               ("a.py", (⟨"Cat", "HIGH", "3", "Impact", "same"⟩ : Issue))] k)).2.priority)) ∧
      mergeSameIssueAcrossLines
          [("a.py", (⟨"Cat", "LOW", "1", "Impact", "same"⟩ : Issue)),
           ("a.py", (⟨"Cat", "HIGH", "3", "Impact", "same"⟩ : Issue))]
        = [("a.py", (⟨"Cat", "HIGH", "1,3", "Impact", "same"⟩ : Issue))]) :=
  ⟨by decide, merge_priority_max_and_line_union _ (by decide)⟩

/-! ### `sort_findings`: order and stability -/

theorem mem_insertByKey (x y : String × Issue) (l : List (String × Issue)) :
    y ∈ insertByKey x l ↔ y = x ∨ y ∈ l := by
  induction l with
  | nil => simp [insertByKey]
  | cons z zs ih =>
    simp only [insertByKey]
    split
    · simp [List.mem_cons]
    · simp only [List.mem_cons, ih]
      tauto

theorem insertByKey_perm (x : String × Issue) (l : List (String × Issue)) :
    (insertByKey x l).Perm (x :: l) := by
  induction l with
  | nil => simp [insertByKey]
  | cons z zs ih =>
    simp only [insertByKey]
    split
    · exact List.Perm.refl _
    · exact (List.Perm.cons z ih).trans (List.Perm.swap x z zs)

theorem sortFindings_perm (items : List (String × Issue)) :
    (sortFindings items).Perm items := by
  induction items with
  | nil => exact List.Perm.refl _
  | cons a rest ih =>
    show (insertByKey a (sortFindings rest)).Perm (a :: rest)
    exact (insertByKey_perm a _).trans (List.Perm.cons a ih)

theorem sorted_insertByKey (x : String × Issue) (l : List (String × Issue))
    (h : List.Pairwise (fun a b => sortKeyOf a ≤ sortKeyOf b) l) :
    List.Pairwise (fun a b => sortKeyOf a ≤ sortKeyOf b) (insertByKey x l) := by
  induction l with
  | nil => simp [insertByKey]
  | cons z zs ih =>
    rcases List.pairwise_cons.mp h with ⟨hz, hzs⟩
    simp only [insertByKey]
    split
    · rename_i hle
      refine List.pairwise_cons.mpr ⟨fun y hy => ?_, h⟩
      rcases List.mem_cons.mp hy with rfl | hy
      · exact hle
      · exact le_trans hle (hz y hy)
    · rename_i hnle
      have hzx : sortKeyOf z ≤ sortKeyOf x := le_of_lt (not_le.mp hnle)
      refine List.pairwise_cons.mpr ⟨fun y hy => ?_, ih hzs⟩
      rcases (mem_insertByKey x y zs).mp hy with rfl | hy
      · exact hzx
      · exact hz y hy

theorem sortFindings_sorted (items : List (String × Issue)) :
    List.Pairwise (fun a b => sortKeyOf a ≤ sortKeyOf b) (sortFindings items) := by
  induction items with
  | nil => simp [sortFindings]
  | cons a rest ih => exact sorted_insertByKey a _ ih

theorem filter_insertByKey (x : String × Issue) (l : List (String × Issue)) (k : SortKey) :
    (insertByKey x l).filter (fun fi => sortKeyOf fi = k)
      = if sortKeyOf x = k then x :: l.filter (fun fi => sortKeyOf fi = k)
        else l.filter (fun fi => sortKeyOf fi = k) := by
  induction l with
  | nil =>
    simp only [insertByKey, List.filter]
    split <;> rename_i h <;> simp_all
  | cons z zs ih =>
    simp only [insertByKey]
    split
    · rename_i hle
      rw [List.filter_cons]
      split <;> rename_i h <;> simp_all
    · rename_i hnle
      have hzx : sortKeyOf z < sortKeyOf x := not_le.mp hnle
      rw [List.filter_cons, List.filter_cons]
      by_cases hz : sortKeyOf z = k
      · have hxk : ¬ sortKeyOf x = k := by
          intro habs
          rw [habs, ← hz] at hzx
          exact lt_irrefl _ hzx
        have hdz : decide (sortKeyOf z = k) = true := by simp [hz]
        rw [hdz]
        simp only [if_true]
        rw [ih, if_neg hxk, if_neg hxk]
      · have hdz : decide (sortKeyOf z = k) = false := by simp [hz]
        rw [hdz]
        simp only [Bool.false_eq_true, if_false]
        exact ih

theorem sortFindings_stable (items : List (String × Issue)) (k : SortKey) :
    (sortFindings items).filter (fun fi => sortKeyOf fi = k)
      = items.filter (fun fi => sortKeyOf fi = k) := by
  induction items with
  | nil => rfl
  | cons a rest ih =>
    show (insertByKey a (sortFindings rest)).filter _ = _
    rw [filter_insertByKey, List.filter_cons]
    split <;> rename_i h <;> simp_all

/-- C9: `sort_findings` returns a permutation of its input that is
sorted by the total lexicographic key (priority descending through the
negated rank, then category, then file base name, then first impacted
line), and the sort is stable: for every key value, the items carrying
it appear in their input order. -/
theorem sort_findings_sorted_stable (items : List (String × Issue)) :
    (sortFindings items).Perm items ∧
      List.Pairwise (fun a b => sortKeyOf a ≤ sortKeyOf b) (sortFindings items) ∧
      ∀ k : SortKey, (sortFindings items).filter (fun fi => sortKeyOf fi = k)
        = items.filter (fun fi => sortKeyOf fi = k) :=
  ⟨sortFindings_perm items, sortFindings_sorted items, sortFindings_stable items⟩

/-! ### The complexity rule: score decomposition and emission -/

theorem countComplexity_split (ks : List NKind) :
    (ks.filter isComplexityKind).length =
      ks.count .kIf + ks.count .kFor + ks.count .kWhile + ks.count .kTry +
      ks.count .kWith + ks.count .kBoolOp + ks.count .kIfExp +
      ks.count .kComprehension + ks.count .kMatch := by
  induction ks with
  | nil => rfl
  | cons k ks ih =>
    rw [List.filter_cons]
    cases k <;> simp [isComplexityKind, List.count_cons, ih] <;> omega

theorem complexityScore_split (s : Stmt) :
    complexityScore s = 1 + complexityConstructCount s := by
  unfold complexityScore complexityConstructCount
  rw [countComplexity_split]

theorem checkNamed_emit (maxC : Nat) (maxL : Int) (fname kind name : String)
    (node : Stmt) (lineno endLineno : Nat) (rest : List Issue) :
    checkNamed maxC maxL fname kind name node lineno endLineno ++ rest
      = (emitDef maxC maxL fname ⟨kind, name, node, lineno, endLineno⟩).toList ++ rest := by
  unfold checkNamed emitDef
  dsimp only
  by_cases h : maxC < complexityScore node ∨ maxL < locOf lineno endLineno
  · rw [if_pos h, if_pos h]
    rfl
  · rw [if_neg h, if_neg h]
    rfl

theorem filterMap_cons_toList {α β : Type} (f : α → Option β) (a : α) (l : List α) :
    List.filterMap f (a :: l) = (f a).toList ++ List.filterMap f l := by
  rw [List.filterMap_cons]
  cases f a <;> rfl

mutual

theorem complexity_filterMap_S (maxC : Nat) (maxL : Int) (fname : String) :
    ∀ s : Stmt, complexityStmt maxC maxL fname s
      = (defNodesS s).filterMap (emitDef maxC maxL fname)
  | .functionDef n a body l e => by
      rw [complexityStmt, defNodesS, filterMap_cons_toList,
        complexity_filterMap_SL maxC maxL fname body]
      exact checkNamed_emit maxC maxL fname "Function" n _ l e _
  | .asyncFunctionDef n a body l e => by
      rw [complexityStmt, defNodesS, filterMap_cons_toList,
        complexity_filterMap_SL maxC maxL fname body]
      exact checkNamed_emit maxC maxL fname "Async function" n _ l e _
  | .classDef n body l e => by
      rw [complexityStmt, defNodesS, filterMap_cons_toList,
        complexity_filterMap_SL maxC maxL fname body]
      exact checkNamed_emit maxC maxL fname "Class" n _ l e _
  | .assign t v l => rfl
  | .exprStmt v l => rfl
  | .ret v l => rfl
  | .ifStmt t body orelse l => by
      rw [complexityStmt, defNodesS, List.filterMap_append,
        complexity_filterMap_SL maxC maxL fname body,
        complexity_filterMap_SL maxC maxL fname orelse]
  | .forStmt t it body orelse l => by
      rw [complexityStmt, defNodesS, List.filterMap_append,
        complexity_filterMap_SL maxC maxL fname body,
        complexity_filterMap_SL maxC maxL fname orelse]
  | .whileStmt t body orelse l => by
      rw [complexityStmt, defNodesS, List.filterMap_append,
        complexity_filterMap_SL maxC maxL fname body,
        complexity_filterMap_SL maxC maxL fname orelse]
  | .withStmt it body l => by
      rw [complexityStmt, defNodesS, complexity_filterMap_SL maxC maxL fname body]
  | .tryStmt body handlers orelse finalbody l => by
      rw [complexityStmt, defNodesS, List.filterMap_append, List.filterMap_append,
        List.filterMap_append,
        complexity_filterMap_SL maxC maxL fname body,
        complexity_filterMap_HL maxC maxL fname handlers,
        complexity_filterMap_SL maxC maxL fname orelse,
        complexity_filterMap_SL maxC maxL fname finalbody]
  | .importS n l => rfl
  | .importFromS m n l => rfl
  | .matchStmt subj cases l => by
      rw [complexityStmt, defNodesS, complexity_filterMap_ML maxC maxL fname cases]
  | .passS l => rfl

theorem complexity_filterMap_SL (maxC : Nat) (maxL : Int) (fname : String) :
    ∀ sl : SL, complexityStmts maxC maxL fname sl
      = (defNodesSL sl).filterMap (emitDef maxC maxL fname)
  | .nil => rfl
  | .cons s tl => by
      rw [complexityStmts, defNodesSL, List.filterMap_append,
        complexity_filterMap_S maxC maxL fname s,
        complexity_filterMap_SL maxC maxL fname tl]

theorem complexity_filterMap_HL (maxC : Nat) (maxL : Int) (fname : String) :
    ∀ hl : HL, complexityHandlers maxC maxL fname hl
      = (defNodesHL hl).filterMap (emitDef maxC maxL fname)
  | .nil => rfl
  | .cons (.mk typ body l) tl => by
      rw [complexityHandlers, defNodesHL, List.filterMap_append,
        complexity_filterMap_SL maxC maxL fname body,
        complexity_filterMap_HL maxC maxL fname tl]

theorem complexity_filterMap_ML (maxC : Nat) (maxL : Int) (fname : String) :
    ∀ ml : ML, complexityCases maxC maxL fname ml
      = (defNodesML ml).filterMap (emitDef maxC maxL fname)
  | .nil => rfl
  | .cons (.mk body) tl => by
      rw [complexityCases, defNodesML, List.filterMap_append,
        complexity_filterMap_SL maxC maxL fname body,
        complexity_filterMap_ML maxC maxL fname tl]

end

theorem listIsPref_append_self (pat rest : List Char) :
    listIsPref pat (pat ++ rest) = true := by
  induction pat with
  | nil => rfl
  | cons c cs ih => simp [listIsPref, ih]

theorem infix_of_pref {pat l : List Char} (h : listIsPref pat l = true) :
    listInfixOf pat l = true := by
  cases l with
  | nil => exact h
  | cons c cs => simp [listInfixOf, h]

theorem infix_append_left (a : List Char) {pat b : List Char}
    (h : listInfixOf pat b = true) : listInfixOf pat (a ++ b) = true := by
  induction a with
  | nil => exact h
  | cons c cs ih =>
    show listInfixOf pat (c :: (cs ++ b)) = true
    simp [listInfixOf, ih]

theorem infix_in_concat (pre mid post : List Char) :
    listInfixOf mid (pre ++ (mid ++ post)) = true :=
  infix_append_left pre (infix_of_pref (listIsPref_append_self mid post))

theorem complexityMessage_contains (fname kind name : String) (cplx : Nat) (loc : Int)
    (maxC : Nat) (maxL : Int) :
    listInfixOf ("C=".data ++ natChars cplx)
        (complexityMessage fname kind name cplx loc maxC maxL).data = true ∧
      listInfixOf ("LOC=".data ++ (intStr loc).data)
        (complexityMessage fname kind name cplx loc maxC maxL).data = true := by
  have h1 : "' too complex (C=".data = "' too complex (".data ++ "C=".data := by decide
  have h2 : ", LOC=".data = ", ".data ++ "LOC=".data := by decide
  constructor
  · have hdec : (complexityMessage fname kind name cplx loc maxC maxL).data
        = (fname.data ++ (": ".data ++ (kind.data ++ (" '".data ++ (name.data ++
            "' too complex (".data))))) ++
          (("C=".data ++ natChars cplx) ++ (", LOC=".data ++ ((intStr loc).data ++
            ("); thresholds: C>".data ++ (natChars maxC ++ (" or LOC>".data ++
              ((intStr maxL).data ++ ".".data))))))) := by
      simp only [complexityMessage, String.data_append, natStr, h1, List.append_assoc,
        List.cons_append, List.nil_append]
    rw [hdec]
    exact infix_in_concat _ _ _
  · have hdec : (complexityMessage fname kind name cplx loc maxC maxL).data
        = (fname.data ++ (": ".data ++ (kind.data ++ (" '".data ++ (name.data ++
            ("' too complex (C=".data ++ (natChars cplx ++ ", ".data))))))) ++
          (("LOC=".data ++ (intStr loc).data) ++
            ("); thresholds: C>".data ++ (natChars maxC ++ (" or LOC>".data ++
              ((intStr maxL).data ++ ".".data))))) := by
      simp only [complexityMessage, String.data_append, natStr, h2, List.append_assoc,
        List.cons_append, List.nil_append]
    rw [hdec]
    exact infix_in_concat _ _ _

/-- C4: for every function, async-function or class definition node in a
parsed tree, the complexity score is 1 plus the number of conditional
(`If`), loop (`For`/`While`), exception-handling (`Try`), scoped-block
(`With`), boolean-operator, conditional-expression, comprehension-clause
and pattern-match constructs anywhere in the definition's subtree; its
size is end line − start line + 1; the rule emits a finding for the node
if and only if the score strictly exceeds the complexity threshold
(10 in the registry's instance) or the size strictly exceeds the line
threshold (50 in the registry's instance); and the finding's message
contains both measured values. -/
theorem complexity_score_size_emission (maxC : Nat) (maxL : Int) (fname : String) :
    (∀ s : Stmt, complexityScore s = 1 + complexityConstructCount s) ∧
    (∀ lineno endLineno : Nat, 0 < lineno → 0 < endLineno →
      locOf lineno endLineno = (endLineno : Int) - (lineno : Int) + 1) ∧
    (∀ (tree : Module) (text : String),
      complexityCheck maxC maxL fname (some tree) text
        = (defNodesSL tree.body).filterMap (emitDef maxC maxL fname)) ∧
    (∀ d : DefView, (emitDef maxC maxL fname d).isSome
        ↔ (maxC < complexityScore d.node ∨ maxL < locOf d.lineno d.endLineno)) ∧
    (∀ (d : DefView) (i : Issue), emitDef maxC maxL fname d = some i →
      listInfixOf ("C=".data ++ natChars (complexityScore d.node)) i.description.data = true ∧
      listInfixOf ("LOC=".data ++ (intStr (locOf d.lineno d.endLineno)).data)
        i.description.data = true) := by
  refine ⟨complexityScore_split, ?_, ?_, ?_, ?_⟩
  · intro lineno endLineno h1 h2
    unfold locOf
    rw [if_pos ⟨h1, h2⟩]
  · intro tree text
    show complexityStmts maxC maxL fname tree.body = _
    exact complexity_filterMap_SL maxC maxL fname tree.body
  · intro d
    unfold emitDef
    split <;> rename_i h <;> simp [h]
  · intro d i hemit
    unfold emitDef at hemit
    split at hemit
    · have hdesc : i.description
          = complexityMessage fname d.kind d.name (complexityScore d.node)
              (locOf d.lineno d.endLineno) maxC maxL := by
        cases Option.some.injEq .. ▸ hemit
        rfl
      rw [hdesc]
      exact complexityMessage_contains fname d.kind d.name _ _ maxC maxL
    · exact absurd hemit (by simp)

/-- Witness: C4 applied at concrete line numbers and at a concrete
definition node that exceeds a complexity threshold of 0. -/
theorem complexity_score_size_emission_witness :
    (locOf 3 7 = (7 : Int) - 3 + 1) ∧
    (listInfixOf ("C=".data ++ natChars (complexityScore
        ((Stmt.functionDef "f" ⟨[], [], none, none⟩ (SL.cons (Stmt.passS 2) SL.nil) 1 2) :
          Stmt)))
      (Issue.description ⟨"Maintainability", "LOW", "1", complexityIMPACT,
        "a.py: Function 'f' too complex (C=1, LOC=2); thresholds: C>0 or LOC>50."⟩).data
        = true ∧
     listInfixOf ("LOC=".data ++ (intStr (locOf 1 2)).data)
      (Issue.description ⟨"Maintainability", "LOW", "1", complexityIMPACT,
        "a.py: Function 'f' too complex (C=1, LOC=2); thresholds: C>0 or LOC>50."⟩).data
        = true) :=
  ⟨(complexity_score_size_emission 0 50 "a.py").2.1 3 7 (by decide) (by decide),
   (complexity_score_size_emission 0 50 "a.py").2.2.2.2
     ⟨"Function", "f",
       Stmt.functionDef "f" ⟨[], [], none, none⟩ (SL.cons (Stmt.passS 2) SL.nil) 1 2, 1, 2⟩
     ⟨"Maintainability", "LOW", "1", complexityIMPACT,
       "a.py: Function 'f' too complex (C=1, LOC=2); thresholds: C>0 or LOC>50."⟩
     (by decide)⟩

/-! ### Rule behavior on an unparsable file -/

/-- C1 counterexample: `TodoComments.check` scans the raw text and never
consults the tree, so on the unparsable source `"x = TODO("` with no
parse tree it still returns a finding — not every rule of the registry
returns the empty list on parse failure, and the driver loop over rules
including it returns a non-empty list. -/
theorem todo_check_nonempty_on_unparsable :
    todoCheck "a.py" none "x = TODO(" ≠ [] ∧
      runChecks [undefinedNameCheck, concurrencyCheck, todoCheck]
        "a.py" none "x = TODO(" "LOW" none ≠ [] := by
  constructor <;> decide

/-- C1 (amended): every tree-inspecting rule returns the empty list when
the tree is absent, and the `run_on_file` loop returns the empty list
whenever all its rules do; but `TodoComments` scans the raw text
regardless of the tree, so on an unparsable file the loop returns
exactly the text-scanning rules' filtered findings, which can be
non-empty; nothing raises (every embedded check is a total function). -/
theorem rules_on_missing_tree (fname text minp : String) (maxl : Option Nat) :
    undefinedNameCheck fname none text = [] ∧
    concurrencyCheck fname none text = [] ∧
    complexityCheck 10 50 fname none text = [] ∧
    (∀ tr : Option Module, todoCheck fname tr text = todoCheck fname none text) ∧
    (∀ rules : List RuleCheck, (∀ r ∈ rules, r fname none text = []) →
      runChecks rules fname none text minp maxl = []) ∧
    (∀ rules : List RuleCheck, (∀ r ∈ rules, r fname none text = []) →
      runChecks (rules ++ [todoCheck]) fname none text minp maxl
        = runChecks [todoCheck] fname none text minp maxl) := by
  have hfold : ∀ (rules : List RuleCheck) (acc : List Issue),
      (∀ r ∈ rules, r fname none text = []) →
      rules.foldl (fun acc r =>
        acc ++ (r fname none text).filterMap fun iss =>
          if rankD 1 minp ≤ rankD 1 iss.priority then some (truncIssue maxl iss)
          else none) acc = acc := by
    intro rules
    induction rules with
    | nil => intro acc _; rfl
    | cons r rest ih =>
      intro acc h
      rw [List.foldl_cons, h r (List.mem_cons_self r rest)]
      simp only [List.filterMap_nil, List.append_nil]
      exact ih acc (fun r' hr' => h r' (List.mem_cons_of_mem r hr'))
  refine ⟨rfl, rfl, rfl, fun tr => rfl, fun rules h => hfold rules [] h, ?_⟩
  intro rules h
  unfold runChecks
  rw [List.foldl_append, hfold rules [] h]

/-- Witness: the amended C1 applied with the undefined-name rule as the
tree-inspecting registry and the TODO scanner appended. -/
theorem rules_on_missing_tree_witness :
    runChecks [undefinedNameCheck] "a.py" none "TODO" "LOW" none = [] ∧
      runChecks ([undefinedNameCheck] ++ [todoCheck]) "a.py" none "TODO" "LOW" none
        = runChecks [todoCheck] "a.py" none "TODO" "LOW" none :=
  ⟨(rules_on_missing_tree "a.py" "TODO" "LOW" none).2.2.2.2.1 [undefinedNameCheck]
    (by
      intro r hr
      rcases List.mem_singleton.mp hr with rfl
      rfl),
   (rules_on_missing_tree "a.py" "TODO" "LOW" none).2.2.2.2.2 [undefinedNameCheck]
    (by
      intro r hr
      rcases List.mem_singleton.mp hr with rfl
      rfl)⟩

/-! ### Code evaluations for the undefined-name and concurrency rules -/

/-- C2 (code evaluation at the failing input): on the module
`def outer():` / `    def inner():` / `        undefined_name`, the
undefined-name rule reports the single `undefined_name` load occurrence
(line 3) twice — once during the enclosing function's pass (whose walk
descends into `inner`) and once during `inner`'s own pass — although the
rule's docstring promises detection "without double-reporting". -/
theorem undefined_name_double_report_on_nested_function :
    undefinedNameCheck "f.py"
        (some ⟨SL.cons (Stmt.functionDef "outer" ⟨[], [], none, none⟩
          (SL.cons (Stmt.functionDef "inner" ⟨[], [], none, none⟩
            (SL.cons (Stmt.exprStmt (Expr.nameE "undefined_name" Ctx.load 3) 3) SL.nil) 2 3)
            SL.nil) 1 3) SL.nil⟩) ""
      = [undefIssue "undefined_name" 3, undefIssue "undefined_name" 3] ∧
    List.count (undefIssue "undefined_name" 3)
      (undefinedNameCheck "f.py"
        (some ⟨SL.cons (Stmt.functionDef "outer" ⟨[], [], none, none⟩
          (SL.cons (Stmt.functionDef "inner" ⟨[], [], none, none⟩
            (SL.cons (Stmt.exprStmt (Expr.nameE "undefined_name" Ctx.load 3) 3) SL.nil) 2 3)
            SL.nil) 1 3) SL.nil⟩) "") = 2 := by
  constructor <;> decide

/-- C5 (code evaluation at the failing input): on the module
`def f():` / `    p = multiprocessing.Process(g)` / `    p.start()`,
the concurrency rule flags the `Process` construction inside the
function body as a module-import-time construction, and reports the
started-but-not-joined variable `p` both for the scope `<module>` and
for the scope `f` — although the construction does not occur at module
scope; the claim predicts only the single scope-`f` finding. -/
theorem concurrency_flags_function_body_as_module_scope :
    concurrencyCheck "m.py"
        (some ⟨SL.cons (Stmt.functionDef "f" ⟨[], [], none, none⟩
          (SL.cons (Stmt.assign (EL.cons (Expr.nameE "p" Ctx.store 2) EL.nil)
              (Expr.call (Expr.attributeE (Expr.nameE "multiprocessing" Ctx.load 2)
                "Process" 2) (EL.cons (Expr.nameE "g" Ctx.load 2) EL.nil) 2) 2)
            (SL.cons (Stmt.exprStmt (Expr.call
              (Expr.attributeE (Expr.nameE "p" Ctx.load 3) "start" 3) EL.nil 3) 3) SL.nil))
          1 3) SL.nil⟩) ""
      = [ruleMake concurrencyMeta (.int 2)
           "multiprocessing object created at import time; protect with if __name__ == '__main__':",
         ruleMake concurrencyMeta (.int 3)
           "Process \"p\" started but not joined in scope \"<module>\".",
         ruleMake concurrencyMeta (.int 3)
           "Process \"p\" started but not joined in scope \"f\"."] := by
  decide

end PyCodeReview
